import Mathlib

/-!
# Verification of the Connect Four MCTS engine

Shallow embedding of `src/connect_four.py`: the board model, the MCTS node
mechanics (`best_child`, `best_child_final`), the PMCGS/UCT simulation loop,
the game simulator, and the tournament pairing loop.  Python floats storing
sums of integer game values are embedded as exact rationals; the real-valued
UCB formula (`math.sqrt`, `math.log`) is embedded over `Real`.  The global
pseudo-random generator is embedded as an explicitly threaded stream of
naturals (`RNG`); each `random.choice(xs)` draws one natural and indexes
`xs` modulo its length, and `random.seed s` replaces the stream by one
determined by `s` alone.
-/

namespace ConnectFour

/-- `_opponent` from the source: the opposing player's token. -/
def opponent (player : Char) : Char := if player = 'R' then 'Y' else 'R'

/-- `Board`: a 6-row by 7-column grid of cells (`'O'` empty) plus the
per-column piece counts, exactly the two attributes of the Python class. -/
structure Board where
  grid : List (List Char)
  heights : List ℕ
deriving DecidableEq, Repr

/-- `Board.__init__`: the empty board. -/
def initBoard : Board :=
  { grid := List.replicate 6 (List.replicate 7 'O'), heights := List.replicate 7 0 }

/-- Read a cell, `grid[row][col]` (total: out-of-range reads give `'O'`;
the source only indexes in range). -/
def Board.cellAt (b : Board) (row col : ℕ) : Char :=
  (b.grid.getD row []).getD col 'O'

/-- Read `heights[col]`. -/
def Board.heightAt (b : Board) (col : ℕ) : ℕ := b.heights.getD col 0

/-- `Board.is_valid_move`: `0 <= col < self.COLS and self.heights[col] < self.ROWS`. -/
def Board.is_valid_move (b : Board) (col : ℤ) : Bool :=
  decide (0 ≤ col) && decide (col < 7) && decide (b.heightAt col.toNat < 6)

/-- `Board.make_move`: place `player` at row `ROWS - 1 - heights[col]` and
bump the height; returns the success flag together with the updated board
(the Python method mutates in place). -/
def Board.make_move (b : Board) (col : ℤ) (player : Char) : Bool × Board :=
  if b.is_valid_move col then
    let c := col.toNat
    let row := 5 - b.heightAt c
    (true, { grid := b.grid.set row ((b.grid.getD row []).set c player),
             heights := b.heights.set c (b.heightAt c + 1) })
  else (false, b)

/-- `Board.undo_move`: fails when the column is empty, otherwise decrements
the height and clears the cell at row `ROWS - 1 - heights[col]` (computed
after the decrement).  The source performs no column-bounds check here, so
the embedding takes a natural-number column (the claims only concern
`0 ≤ col < 7`, where Python list indexing is in range). -/
def Board.undo_move (b : Board) (col : ℕ) : Bool × Board :=
  if b.heightAt col = 0 then (false, b)
  else
    let h := b.heightAt col - 1
    let row := 5 - h
    (true, { grid := b.grid.set row ((b.grid.getD row []).set col 'O'),
             heights := b.heights.set col h })

/-- `Board.get_legal_moves`: columns `0..6` that admit a move, ascending. -/
def Board.get_legal_moves (b : Board) : List ℤ :=
  ((List.range 7).map (Int.ofNat)).filter (fun col => b.is_valid_move col)

/-- `Board.is_full`: every height equals `ROWS`. -/
def Board.is_full (b : Board) : Bool := b.heights.all (fun h => h = 6)

/-- `Board.check_win`: scan all horizontal, vertical and two diagonal
windows of four, with the same loop ranges as the source. -/
def Board.check_win (b : Board) (player : Char) : Bool :=
  ((List.range 6).any fun row => (List.range 4).any fun col =>
    (List.range 4).all fun i => b.cellAt row (col + i) = player) ||
  ((List.range 3).any fun row => (List.range 7).any fun col =>
    (List.range 4).all fun i => b.cellAt (row + i) col = player) ||
  ((List.range 3).any fun row => (List.range 4).any fun col =>
    (List.range 4).all fun i => b.cellAt (row + i) (col + i) = player) ||
  ((List.range 3).any fun row => (List.range' 3 4).any fun col =>
    (List.range 4).all fun i => b.cellAt (row + i) (col - i) = player)

/-- `Board.is_terminal`: `(terminal?, value)` with Yellow checked first. -/
def Board.is_terminal (b : Board) : Bool × ℤ :=
  if b.check_win 'Y' then (true, 1)
  else if b.check_win 'R' then (true, -1)
  else if b.is_full then (true, 0)
  else (false, 0)

/-- Free capacity of the board: how many more successful moves fit.  Used
as the decreasing measure / fuel bound for the game and rollout loops. -/
def Board.freeCap (b : Board) : ℕ := (b.heights.map (fun h => 6 - h)).sum

/-! ## Spec-side board predicates -/

/-- The board has the fixed 6x7 dimensions of the Python class. -/
def Dims (b : Board) : Prop :=
  b.grid.length = 6 ∧ (∀ r ∈ b.grid, r.length = 7) ∧ b.heights.length = 7

instance : DecidablePred Dims := fun b => by
  unfold Dims; infer_instance

/-- Column-stacking well-formedness: dimensions hold, each height is at
most 6, and a cell is occupied exactly when it lies at or below the top of
its column's stack (rows count from the top, so column `c` is occupied on
rows `6 - heights[c] .. 5`). -/
def Stacked (b : Board) : Prop :=
  Dims b ∧ ∀ c < 7, b.heightAt c ≤ 6 ∧
    ∀ r < 6, (b.cellAt r c ≠ 'O' ↔ 6 - b.heightAt c ≤ r)

instance : DecidablePred Stacked := fun b => by
  unfold Stacked; infer_instance

/-- Number of non-empty cells in column `c` (the grid has 6 rows). -/
def colCount (b : Board) (c : ℕ) : ℕ :=
  ((List.range 6).filter (fun r => b.cellAt r c ≠ 'O')).length

/-- Boards reachable from the empty board by `make_move` / `undo_move`
calls with columns `0..6` and genuine player tokens. -/
inductive Reachable : Board → Prop
  | init : Reachable initBoard
  | make {b : Board} (col : ℕ) (player : Char) (hcol : col < 7)
      (hp : player = 'R' ∨ player = 'Y') (hb : Reachable b) :
      Reachable (b.make_move col player).2
  | undo {b : Board} (col : ℕ) (hcol : col < 7) (hb : Reachable b) :
      Reachable (b.undo_move col).2

/-! ## Pseudo-random generator model

The Python code draws from the global `random` module.  We model the
generator state as a stream of naturals; `random.choice(xs)` consumes one
draw and indexes `xs` modulo its length, and `random.seed(s)` replaces the
whole state by a stream determined by `s` alone. -/

/-- Generator state: an infinite stream of naturals. -/
def RNG : Type := ℕ → ℕ

/-- Draw one natural and advance the stream. -/
def RNG.next (g : RNG) : ℕ × RNG := (g 0, fun n => g (n + 1))

/-- `random.seed s`: the post-seed state is a function of the seed alone
(the concrete stream stands in for the Mersenne twister). -/
def seedRNG (s : ℤ) : RNG := fun n => s.natAbs + n

/-! ## MCTS tree nodes

`MCTSNode.children` is a Python `dict` keyed by the move; insertion order
is its stable iteration order, embedded as an association list.  `wi`
accumulates the integer game values `-1/0/1` (exact in floating point), so
it is embedded as a rational; the UCB arithmetic of `best_child` is carried
out over the reals.  The `parent` attribute is only ever written, never
read by the algorithms, and is omitted. -/

inductive MCTSNode : Type
  | mk (wi : ℚ) (ni : ℕ) (untried_moves : List ℤ) (player_to_move : Char)
      (move : Option ℤ) (children : List (ℤ × MCTSNode)) : MCTSNode

namespace MCTSNode

def wi : MCTSNode → ℚ | mk w _ _ _ _ _ => w
def ni : MCTSNode → ℕ | mk _ n _ _ _ _ => n
def untried_moves : MCTSNode → List ℤ | mk _ _ u _ _ _ => u
def player_to_move : MCTSNode → Char | mk _ _ _ p _ _ => p
def move : MCTSNode → Option ℤ | mk _ _ _ _ m _ => m
def children : MCTSNode → List (ℤ × MCTSNode) | mk _ _ _ _ _ c => c

/-- A fresh node as built by `MCTSNode.__init__`. -/
def new (player : Char) (mv : Option ℤ) : MCTSNode := mk 0 0 [] player mv []

/-- `is_fully_expanded`: no untried moves left. -/
def is_fully_expanded (n : MCTSNode) : Bool := n.untried_moves = []

/-- Record one backpropagation visit: `ni += 1; wi += value`. -/
def visited (n : MCTSNode) (value : ℤ) : MCTSNode :=
  mk (n.wi + value) (n.ni + 1) n.untried_moves n.player_to_move n.move n.children

/-- The UCB quantity of `best_child`:
`child.wi / child.ni + c_param * sqrt(log(node.ni) / child.ni)`. -/
noncomputable def ucbValue (c_param : ℝ) (node_ni : ℕ) (child : MCTSNode) : ℝ :=
  (child.wi : ℝ) / (child.ni : ℝ) + c_param * Real.sqrt (Real.log node_ni / (child.ni : ℝ))

/-- The accumulator loop of `best_child`: starting from `best_value = ±inf`
and `best_child = None`, adopt each element whose score is strictly
`better` than the current best (so the first element is always adopted, and
exact ties keep the earlier element).  Elements are pre-tagged with their
position so the caller can recover which child was chosen. -/
noncomputable def argBestGo {α : Type} (better : ℝ → ℝ → Prop) (f : α → ℝ) :
    List (ℕ × α) → Option (ℕ × ℝ) → Option ℕ
  | [], acc => acc.map Prod.fst
  | (i, a) :: rest, acc =>
      have : Decidable (match acc with | none => True | some (_, bv) => better (f a) bv) :=
        Classical.propDecidable _
      if (match acc with | none => True | some (_, bv) => better (f a) bv) then
        argBestGo better f rest (some (i, f a))
      else
        argBestGo better f rest acc

/-- The comparator chosen by `best_child` / `best_child_final`: Yellow
maximizes, anyone else minimizes. -/
def betterFor (player : Char) : ℝ → ℝ → Prop :=
  if player = 'Y' then fun x y => x > y else fun x y => x < y

/-- `best_child`, returning the position of the chosen child in the stable
iteration order of `children`.  `k` is the draw used by `random.choice`
when zero-visit children exist. -/
noncomputable def best_childIdx (c_param : ℝ) (k : ℕ) (n : MCTSNode) : Option ℕ :=
  if n.children.isEmpty then none
  else
    let unexploredIdx := (n.children.enum.filter (fun p => p.2.2.ni = 0)).map Prod.fst
    if unexploredIdx ≠ [] then unexploredIdx.get? (k % unexploredIdx.length)
    else argBestGo (betterFor n.player_to_move)
      (fun p => ucbValue c_param n.ni p.2) n.children.enum none

/-- `best_child`: the chosen child node itself. -/
noncomputable def best_child (c_param : ℝ) (k : ℕ) (n : MCTSNode) : Option MCTSNode :=
  (n.best_childIdx c_param k).bind (fun i => (n.children.get? i).map Prod.snd)

/-- The accumulator loop of `best_child_final`: over `children.items()` in
order, considering only children with `ni > 0`, compare `wi / ni` (exact
rationals) with the same strict comparator; the accumulator mirrors the
Python triple `(best_move, best_child, best_value)` with `best_value = ±inf`
as `none`. -/
def finalGo (player : Char) :
    List (ℤ × MCTSNode) → ℤ × Option MCTSNode × Option ℚ → ℤ × Option MCTSNode
  | [], (bm, bc, _) => (bm, bc)
  | (mv, c) :: rest, (bm, bc, bv) =>
      if c.ni > 0 then
        let value : ℚ := c.wi / c.ni
        let adopt : Bool :=
          match bv with
          | none => true
          | some v => if player = 'Y' then decide (value > v) else decide (value < v)
        if adopt then finalGo player rest (mv, some c, some value)
        else finalGo player rest (bm, bc, bv)
      else finalGo player rest (bm, bc, bv)

/-- `best_child_final`: no-exploration final choice; `(-1, None)` when no
child has been visited. -/
def best_child_final (n : MCTSNode) : ℤ × Option MCTSNode :=
  finalGo n.player_to_move n.children (-1, none, none)

end MCTSNode

/-! ## Rollout and the shared simulation body

`PMCGSAlgorithm._run_simulation` and `UCTAlgorithm._run_simulation` are
textually identical except for how the selection phase picks an expanded
child, so the body is embedded once, parameterized by that policy.  The
policy receives the node and the generator and yields either `none` (the
UCT `break` when `best_child` gives nothing to follow) or the position of
the chosen child in `children` together with the column to play. -/

/-- Rollout loop: random legal moves, alternating players, until terminal
(or no legal move, defensively a draw).  `fuel` bounds the iteration count;
callers pass the board's free capacity, which the loop body strictly
consumes, so the bound is never hit from the algorithm's entry points. -/
def rollout (fuel : ℕ) (b : Board) (player : Char) (g : RNG) : ℤ × RNG :=
  let t := b.is_terminal
  if t.1 then (t.2, g)
  else
    let legal := b.get_legal_moves
    if legal.isEmpty then (0, g)
    else
      match fuel with
      | 0 => (0, g)
      | fuel' + 1 =>
        let (k, g') := g.next
        let mv := legal.getD (k % legal.length) 0
        rollout fuel' (b.make_move mv player).2 (opponent player) g'

/-- A selection policy: given the current (fully expanded, with children)
node, produce the position of the child to descend into and the column to
play, or `none` to stop the descent. -/
def SelPolicy : Type := MCTSNode → RNG → Option (ℕ × ℤ) × RNG

/-- Terminal-or-rollout processing of the node ending the descent path
(the node's own backpropagation update included): when the scratch board is
terminal the terminal value is used, otherwise a rollout from the node's
player-to-move produces it. -/
def simLeaf (b : Board) (n : MCTSNode) (g : RNG) : MCTSNode × ℤ × RNG :=
  let t := b.is_terminal
  let vg := if t.1 then (t.2, g) else rollout b.freeCap b n.player_to_move g
  (n.visited vg.1, vg.1, vg.2)

/-- Expansion: pick a random untried move, apply it, create the child with
the opponent to move and the new position's legal moves untried, then take
the value from the (re-checked) terminal test or a rollout from the child's
player; the child and the expanding node both receive the backpropagation
update. -/
def simExpand (b : Board) (n : MCTSNode) (g : RNG) : MCTSNode × ℤ × RNG :=
  let kg := g.next
  let mv := n.untried_moves.getD (kg.1 % n.untried_moves.length) 0
  let b' := (b.make_move mv n.player_to_move).2
  let t' := b'.is_terminal
  let nextPlayer := opponent n.player_to_move
  let vg := if t'.1 then (t'.2, kg.2) else rollout b'.freeCap b' nextPlayer kg.2
  let newNode := MCTSNode.mk vg.1 1 b'.get_legal_moves nextPlayer (some mv) []
  (MCTSNode.mk (n.wi + vg.1) (n.ni + 1) (n.untried_moves.erase mv)
    n.player_to_move n.move (n.children ++ [(mv, newNode)]), vg.1, vg.2)

/-- What `_run_simulation` does at the node where the descent stopped:
expand when the position is non-terminal and untried moves remain,
otherwise process it as a leaf. -/
def simStep (b : Board) (n : MCTSNode) (g : RNG) : MCTSNode × ℤ × RNG :=
  if ¬ (b.is_terminal).1 ∧ ¬ n.untried_moves.isEmpty then simExpand b n g
  else simLeaf b n g

/-- One `_run_simulation` call, returning the updated tree, the value that
was backpropagated, and the advanced generator.  Selection descends while
the node is fully expanded and has children; the stopping node is then
expanded / rolled out by `simStep`, and backpropagation adds one visit and
the value to every node on the descent path.  A `none` policy answer is the
UCT `break` (the node is fully expanded, so `simStep` rolls it out as a
leaf); a policy answer whose position is out of range is treated the same
way (the policies below never produce one). -/
def runSimulation (policy : SelPolicy) (b : Board) (n : MCTSNode) (g : RNG) :
    MCTSNode × ℤ × RNG :=
  if n.is_fully_expanded ∧ ¬ n.children.isEmpty then
    let pg := policy n g
    match h : pg.1.bind
        (fun im => (n.children.get? im.1).map (fun kc => (im, kc))) with
    | some (im, kc) =>
      let res := runSimulation policy (b.make_move im.2 n.player_to_move).2 kc.2 pg.2
      (MCTSNode.mk (n.wi + res.2.1) (n.ni + 1) n.untried_moves n.player_to_move
        n.move (n.children.set im.1 (kc.1, res.1)), res.2.1, res.2.2)
    | none => simLeaf b n pg.2
  else simStep b n g
termination_by sizeOf n
decreasing_by
  rcases Option.bind_eq_some.mp h with ⟨im', him', hmap⟩
  rcases Option.map_eq_some'.mp hmap with ⟨kc', hkc', heq⟩
  cases heq
  have hmem : kc ∈ n.children := List.get?_mem hkc'
  have h1 : sizeOf kc < sizeOf n.children := List.sizeOf_lt_of_mem hmem
  obtain ⟨key, child⟩ := kc
  have h2 : sizeOf child < sizeOf (key, child) := by
    have hp : sizeOf (key, child) = 1 + sizeOf key + sizeOf child := rfl
    omega
  cases n with
  | mk w ni u p m c =>
    simp only [MCTSNode.children] at h1
    simp only [MCTSNode.mk.sizeOf_spec]
    omega

/-- The `for _ in range(num_simulations)` loop of `select_move`: the board
is the algorithm's own (copied afresh inside each simulation). -/
def simLoop (policy : SelPolicy) (b : Board) : ℕ → MCTSNode → RNG → MCTSNode × RNG
  | 0, n, g => (n, g)
  | m + 1, n, g =>
    let res := runSimulation policy b n g
    simLoop policy b m res.1 res.2.2

/-- Shared shape of `PMCGSAlgorithm.select_move` / `UCTAlgorithm.select_move`:
build the root for `player` with the legal moves untried, run the
simulations, then commit via `best_child_final`. -/
def selectMoveCore (policy : SelPolicy) (b : Board) (player : Char)
    (num_simulations : ℕ) (g : RNG) : ℤ × RNG :=
  let root := MCTSNode.mk 0 0 b.get_legal_moves player none []
  let res := simLoop policy b num_simulations root g
  ((res.1.best_child_final).1, res.2)

/-- PMCGS selection phase: `random.choice(list(node.children.keys()))`,
then descend into `children[move]` (keys are unique in a Python dict, so
the entry with that key is the drawn position). -/
def pmcgsPolicy : SelPolicy := fun n g =>
  let (k, g') := g.next
  if n.children.isEmpty then (none, g')
  else
    let i := k % n.children.length
    (some (i, ((n.children.get? i).map Prod.fst).getD 0), g')

/-- UCT selection phase: `best_child()`, breaking when it yields `None` or
a child without a move; a draw is consumed exactly when zero-visit children
exist (that is the only case where `best_child` calls `random.choice`). -/
noncomputable def uctPolicy : SelPolicy := fun n g =>
  let consumes := ¬ ((n.children.enum.filter (fun p => p.2.2.ni = 0)).map Prod.fst).isEmpty
  have : Decidable consumes := Classical.propDecidable _
  let kg := if consumes then g.next else (0, g)
  match n.best_childIdx 1.4 kg.1 with
  | none => (none, kg.2)
  | some i =>
    match (n.children.get? i).map Prod.snd with
    | none => (none, kg.2)
    | some child =>
      match child.move with
      | none => (none, kg.2)
      | some mv => (some (i, mv), kg.2)

/-- `PMCGSAlgorithm.select_move` (verbosity printing omitted). -/
def pmcgs_select_move (b : Board) (player : Char) (num_simulations : ℕ)
    (g : RNG) : ℤ × RNG :=
  selectMoveCore pmcgsPolicy b player num_simulations g

/-- `UCTAlgorithm.select_move` (verbosity printing omitted). -/
noncomputable def uct_select_move (b : Board) (player : Char) (num_simulations : ℕ)
    (g : RNG) : ℤ × RNG :=
  selectMoveCore uctPolicy b player num_simulations g

/-- `URAlgorithm.select_move`: a uniformly random legal move, `-1` when
none exist. -/
def ur_select_move (b : Board) (g : RNG) : ℤ × RNG :=
  let legal := b.get_legal_moves
  if legal.isEmpty then (-1, g)
  else
    let (k, g') := g.next
    (legal.getD (k % legal.length) 0, g')

/-! ## Game simulator and tournament driver

`Tournament.play_game` and `_play_game_worker` share the same game loop:
alternate the two sides from Red on the empty board, treat a `-1` answer or
a rejected move as an immediate loss for the mover, and map the terminal
value to the winner string.  The loop is embedded once, parameterized by
the two sides' selectors; besides the winner it returns the list of
successfully applied moves (instrumentation used to state determinism of
the full move sequence) and the advanced generator. -/

/-- A side's move selector as used by the game loop: `Tournament._select_move`
partially applied to an algorithm instance and its spec. -/
def Selector : Type := Board → Char → RNG → ℤ × RNG

/-- One game loop of `Tournament.play_game` / `_play_game_worker`.  `fuel`
bounds the number of successful moves; it is only consulted after a
successful, non-terminal move, and the entry points pass the board's free
capacity, which every successful move strictly consumes. -/
def playGameLoop (selR selY : Selector) : ℕ → Board → Char → RNG →
    String × List ℤ × RNG
  | fuel, b, p, g =>
    let mg := (if p = 'R' then selR else selY) b p g
    let mv := mg.1
    let g' := mg.2
    if mv = -1 then ((if p = 'R' then "Y" else "R"), [], g')
    else
      let ok_b := b.make_move mv p
      if ok_b.1 = false then ((if p = 'R' then "Y" else "R"), [], g')
      else
        let b' := ok_b.2
        let t := b'.is_terminal
        if t.1 then
          ((if t.2 = 1 then "Y" else if t.2 = -1 then "R" else "Draw"), [mv], g')
        else
          match fuel with
          | 0 => ("Draw", [mv], g')
          | fuel' + 1 =>
            let res := playGameLoop selR selY fuel' b' (opponent p) g'
            (res.1, mv :: res.2.1, res.2.2)

/-- The three tournament algorithm kinds (a closed set in the source). -/
inductive AKind : Type
  | UR | PMCGS | UCT
deriving DecidableEq, Repr

/-- A tournament algorithm spec: its kind and simulation budget, the two
fields of `Tournament._make_entry` consulted by `_select_move`. -/
structure AlgoSpec where
  kind : AKind
  sims : ℕ
deriving DecidableEq, Repr

/-- `Tournament._select_move`: dispatch on the spec's kind. -/
noncomputable def selectDispatch (spec : AlgoSpec) : Selector := fun b p g =>
  match spec.kind with
  | .UR => ur_select_move b g
  | .PMCGS => pmcgs_select_move b p spec.sims g
  | .UCT => uct_select_move b p spec.sims g

/-- `Tournament.play_game`: the first spec plays Red, starting from the
empty board. -/
noncomputable def play_game (spec1 spec2 : AlgoSpec) (g : RNG) :
    String × List ℤ × RNG :=
  playGameLoop (selectDispatch spec1) (selectDispatch spec2)
    initBoard.freeCap initBoard 'R' g

/-- `_play_game_worker`: seed the generator when a seed is given, then play
one game with `red_spec` as Red.  The ambient generator state `g0` models
the worker process's global `random` state before the call. -/
noncomputable def play_game_worker (red_spec yellow_spec : AlgoSpec)
    (seed : Option ℤ) (g0 : RNG) : String × List ℤ :=
  let g := match seed with
    | some s => seedRNG s
    | none => g0
  let res := playGameLoop (selectDispatch red_spec) (selectDispatch yellow_spec)
    initBoard.freeCap initBoard 'R' g
  (res.1, res.2.1)

/-- The counting loop of `Tournament._run_pair_sequential`: game `gameIdx`
is played with the row spec as Red when `gameIdx` is even, and a game
counts for the row exactly per the source's `if/elif` chains. -/
noncomputable def runPairLoop (sRow sCol : AlgoSpec) :
    ℕ → ℕ → RNG → ℕ → ℕ → ℕ × ℕ
  | _, 0, _, rw, d => (rw, d)
  | gameIdx, remaining + 1, g, rw, d =>
    if gameIdx % 2 = 0 then
      let res := play_game sRow sCol g
      let rw' := if res.1 = "R" then rw + 1 else rw
      let d' := if res.1 = "R" then d else if res.1 = "Draw" then d + 1 else d
      runPairLoop sRow sCol (gameIdx + 1) remaining res.2.2 rw' d'
    else
      let res := play_game sCol sRow g
      let rw' := if res.1 = "Y" then rw + 1 else rw
      let d' := if res.1 = "Y" then d else if res.1 = "Draw" then d + 1 else d
      runPairLoop sRow sCol (gameIdx + 1) remaining res.2.2 rw' d'

/-- `Tournament._run_pair_sequential`: the row algorithm's score over
`num_games` games as `(row_wins + 0.5 * draws) / num_games * 100`
(`0` for zero games). -/
noncomputable def run_pair_sequential (sRow sCol : AlgoSpec) (num_games : ℕ)
    (g : RNG) : ℚ :=
  let counts := runPairLoop sRow sCol 0 num_games g 0 0
  if num_games = 0 then 0
  else (((counts.1 : ℚ) + (1 / 2) * (counts.2 : ℚ)) / (num_games : ℚ)) * 100

/-- Spec-side view of the pairing loop: the bare sequence of winners, game
by game, with the same alternation and generator threading. -/
noncomputable def pairOutcomes (sRow sCol : AlgoSpec) :
    ℕ → ℕ → RNG → List String
  | _, 0, _ => []
  | gameIdx, remaining + 1, g =>
    if gameIdx % 2 = 0 then
      let res := play_game sRow sCol g
      res.1 :: pairOutcomes sRow sCol (gameIdx + 1) remaining res.2.2
    else
      let res := play_game sCol sRow g
      res.1 :: pairOutcomes sRow sCol (gameIdx + 1) remaining res.2.2

/-- The color the row algorithm plays in game `i`: Red in even-indexed
games, Yellow in odd ones. -/
def rowColorStr (i : ℕ) : String := if i % 2 = 0 then "R" else "Y"

/-- How many games, starting at index `i`, the row algorithm won (the
winner token equals the color it played). -/
def rowWinCount : ℕ → List String → ℕ
  | _, [] => 0
  | i, w :: ws => (if w = rowColorStr i then 1 else 0) + rowWinCount (i + 1) ws

/-! ## Board lemmas -/

theorem heightAt_lt_length {b : Board} (hd : Dims b) {c : ℕ} (hc : c < 7) :
    c < b.heights.length := by
  rw [hd.2.2]; exact hc

theorem row_mem_grid {b : Board} (hd : Dims b) {r : ℕ} (hr : r < 6) :
    (b.grid.getD r []).length = 7 := by
  have hlen : r < b.grid.length := by rw [hd.1]; exact hr
  have : b.grid.getD r [] = b.grid[r] := by
    simp [List.getD_eq_getElem?_getD, List.getElem?_eq_getElem hlen]
  rw [this]
  exact hd.2.1 _ (List.getElem_mem hlen)

/-- C3: for `0 ≤ col < 7` with `heights[col] < 6`, `make_move` writes the
player's token at grid row `5 - heights[col]` of that column (leaving every
other cell alone), increments `heights[col]` by exactly one (leaving every
other height alone), and returns true; otherwise it returns false and
leaves the board completely unchanged. -/
theorem make_move_spec (b : Board) (col : ℤ) (p : Char) (hd : Dims b) :
    ((0 ≤ col ∧ col < 7 ∧ b.heightAt col.toNat < 6) →
      (b.make_move col p).1 = true ∧
      (b.make_move col p).2.heightAt col.toNat = b.heightAt col.toNat + 1 ∧
      (∀ c : ℕ, c ≠ col.toNat → (b.make_move col p).2.heightAt c = b.heightAt c) ∧
      (b.make_move col p).2.cellAt (5 - b.heightAt col.toNat) col.toNat = p ∧
      (∀ r c : ℕ, ¬(r = 5 - b.heightAt col.toNat ∧ c = col.toNat) →
        (b.make_move col p).2.cellAt r c = b.cellAt r c)) ∧
    (¬(0 ≤ col ∧ col < 7 ∧ b.heightAt col.toNat < 6) →
      b.make_move col p = (false, b)) := by
  have hvalid : b.is_valid_move col = true ↔
      (0 ≤ col ∧ col < 7 ∧ b.heightAt col.toNat < 6) := by
    simp [Board.is_valid_move, Bool.and_eq_true, decide_eq_true_iff, and_assoc]
  constructor
  · intro hc
    have hv : b.is_valid_move col = true := hvalid.mpr hc
    have hcn : col.toNat < 7 := by omega
    have hrow : 5 - b.heightAt col.toNat < 6 := by omega
    have hhl : col.toNat < b.heights.length := heightAt_lt_length hd hcn
    have hgl : 5 - b.heightAt col.toNat < b.grid.length := by rw [hd.1]; exact hrow
    have hrl : (b.grid.getD (5 - b.heightAt col.toNat) []).length = 7 :=
      row_mem_grid hd hrow
    simp only [Board.make_move, hv, if_pos]
    refine ⟨trivial, ?_, ?_, ?_, ?_⟩
    · simp [Board.heightAt, List.getD_eq_getElem?_getD,
        List.getElem?_set_self hhl]
    · intro c hne
      simp [Board.heightAt, List.getD_eq_getElem?_getD,
        List.getElem?_set_ne (Ne.symm hne)]
    · have hrl' : (b.grid[5 - b.heightAt col.toNat]?.getD []).length = 7 := by
        simpa [List.getD_eq_getElem?_getD] using hrl
      have hcl : col.toNat < (b.grid[5 - b.heightAt col.toNat]?.getD []).length := by
        rw [hrl']; exact hcn
      simp [Board.cellAt, List.getD_eq_getElem?_getD,
        List.getElem?_set_self hgl, List.getElem?_set_self hcl]
    · intro r c hne
      by_cases hr : r = 5 - b.heightAt col.toNat
      · subst hr
        have hcne : c ≠ col.toNat := fun h => hne ⟨rfl, h⟩
        simp [Board.cellAt, List.getD_eq_getElem?_getD,
          List.getElem?_set_self hgl, List.getElem?_set_ne (Ne.symm hcne)]
      · simp [Board.cellAt, List.getD_eq_getElem?_getD,
          List.getElem?_set_ne (fun h => hr h.symm)]
  · intro hc
    have hv : b.is_valid_move col = false := by
      cases h : b.is_valid_move col
      · rfl
      · exact absurd (hvalid.mp h) hc
    simp [Board.make_move, hv]

/-- Witness for C3: a concrete valid and a concrete invalid move. -/
theorem make_move_spec_witness :
    (initBoard.make_move 0 'R').1 = true ∧
    initBoard.make_move 7 'R' = (false, initBoard) :=
  ⟨((make_move_spec initBoard 0 'R' (by decide)).1 (by decide)).1,
   (make_move_spec initBoard 7 'R' (by decide)).2 (by decide)⟩

theorem getElem?_eq_some_getD {α : Type} {l : List α} {n : ℕ} (d : α)
    (h : n < l.length) : l[n]? = some (l.getD n d) := by
  rw [List.getElem?_eq_getElem h, List.getD_eq_getElem?_getD,
    List.getElem?_eq_getElem h]
  rfl

theorem list_set_self {α : Type} (l : List α) (i : ℕ) (a : α)
    (ha : l[i]? = some a) : l.set i a = l := by
  apply List.ext_getElem?
  intro n
  rw [List.getElem?_set]
  by_cases h : i = n
  · subst h
    have hlt : i < l.length := by
      by_contra hge
      rw [List.getElem?_eq_none (by omega)] at ha
      exact Option.noConfusion ha
    simp [hlt, ha]
  · simp [h]

/-- C10: `undo_move` is total on columns `0..6`: on an empty column it
returns false and changes nothing; otherwise it returns true, decrements
`heights[col]` by one (leaving other heights alone), and clears exactly the
topmost occupied cell of the column — row `6 - heights[col]`, which on a
well-formed (stacked) board is occupied while every row above it is empty —
leaving every other cell alone.  The source performs no column-bounds check
(unlike `make_move`), so `col < 7` is what keeps the indexing in range. -/
theorem undo_move_spec (b : Board) (col : ℕ) (hs : Stacked b) (hcol : col < 7) :
    (b.heightAt col = 0 → b.undo_move col = (false, b)) ∧
    (0 < b.heightAt col →
      (b.undo_move col).1 = true ∧
      (b.undo_move col).2.heightAt col = b.heightAt col - 1 ∧
      (∀ c : ℕ, c ≠ col → (b.undo_move col).2.heightAt c = b.heightAt c) ∧
      b.cellAt (6 - b.heightAt col) col ≠ 'O' ∧
      (∀ r : ℕ, r < 6 - b.heightAt col → b.cellAt r col = 'O') ∧
      (b.undo_move col).2.cellAt (6 - b.heightAt col) col = 'O' ∧
      (∀ r c : ℕ, ¬(r = 6 - b.heightAt col ∧ c = col) →
        (b.undo_move col).2.cellAt r c = b.cellAt r c)) := by
  have hd : Dims b := hs.1
  constructor
  · intro h0
    simp [Board.undo_move, h0]
  · intro hpos
    have hne : ¬ b.heightAt col = 0 := by omega
    have hle : b.heightAt col ≤ 6 := (hs.2 col hcol).1
    have hrow_eq : 5 - (b.heightAt col - 1) = 6 - b.heightAt col := by omega
    have hrow : 6 - b.heightAt col < 6 := by omega
    have hhl : col < b.heights.length := heightAt_lt_length hd hcol
    have hgl : 6 - b.heightAt col < b.grid.length := by rw [hd.1]; exact hrow
    have hrl' : (b.grid[6 - b.heightAt col]?.getD []).length = 7 := by
      have := row_mem_grid hd hrow
      simpa [List.getD_eq_getElem?_getD] using this
    have hcl : col < (b.grid[6 - b.heightAt col]?.getD []).length := by
      rw [hrl']; exact hcol
    have hcell := (hs.2 col hcol).2 (6 - b.heightAt col) hrow
    have hres : b.undo_move col = (true, Board.mk
        (b.grid.set (6 - b.heightAt col)
          ((b.grid.getD (6 - b.heightAt col) []).set col 'O'))
        (b.heights.set col (b.heightAt col - 1))) := by
      simp only [Board.undo_move]
      rw [if_neg hne, hrow_eq]
    refine ⟨?_, ?_, ?_, ?_, ?_, ?_, ?_⟩
    · rw [hres]
    · rw [hres]
      simp [Board.heightAt, List.getD_eq_getElem?_getD,
        List.getElem?_set_self hhl]
    · intro c hcne
      rw [hres]
      simp [Board.heightAt, List.getD_eq_getElem?_getD,
        List.getElem?_set_ne (Ne.symm hcne)]
    · exact hcell.mpr (by omega)
    · intro r hr
      have := (hs.2 col hcol).2 r (by omega)
      by_contra hcne
      exact absurd (this.mp hcne) (by omega)
    · rw [hres]
      simp [Board.cellAt, List.getD_eq_getElem?_getD,
        List.getElem?_set_self hgl, List.getElem?_set_self hcl]
    · intro r c hne2
      by_cases hr : r = 6 - b.heightAt col
      · subst hr
        have hcne : c ≠ col := fun h => hne2 ⟨rfl, h⟩
        rw [hres]
        simp [Board.cellAt, List.getD_eq_getElem?_getD,
          List.getElem?_set_self hgl, List.getElem?_set_ne (Ne.symm hcne)]
      · rw [hres]
        simp [Board.cellAt, List.getD_eq_getElem?_getD,
          List.getElem?_set_ne (fun h => hr h.symm)]

/-- Witness for C10: undoing the single piece of a one-move board. -/
theorem undo_move_spec_witness :
    ((initBoard.make_move 0 'R').2.undo_move 0).1 = true :=
  ((undo_move_spec (initBoard.make_move 0 'R').2 0 (by decide) (by decide)).2
    (by decide)).1

/-- C4 counterexample: on a reachable board whose column 0 is full,
`make_move 0` fails silently (changing nothing) but the subsequent
`undo_move 0` still removes the top piece, so the composite does not
restore the original board. -/
theorem make_undo_counterexample :
    (((Board.mk
        [['Y', 'O', 'O', 'O', 'O', 'O', 'O'],
         ['R', 'O', 'O', 'O', 'O', 'O', 'O'],
         ['Y', 'O', 'O', 'O', 'O', 'O', 'O'],
         ['R', 'O', 'O', 'O', 'O', 'O', 'O'],
         ['Y', 'O', 'O', 'O', 'O', 'O', 'O'],
         ['R', 'O', 'O', 'O', 'O', 'O', 'O']]
        [6, 0, 0, 0, 0, 0, 0]).make_move 0 'R').2.undo_move 0).2 ≠
      Board.mk
        [['Y', 'O', 'O', 'O', 'O', 'O', 'O'],
         ['R', 'O', 'O', 'O', 'O', 'O', 'O'],
         ['Y', 'O', 'O', 'O', 'O', 'O', 'O'],
         ['R', 'O', 'O', 'O', 'O', 'O', 'O'],
         ['Y', 'O', 'O', 'O', 'O', 'O', 'O'],
         ['R', 'O', 'O', 'O', 'O', 'O', 'O']]
        [6, 0, 0, 0, 0, 0, 0] := by decide

/-- C4 amended: on a well-formed (stacked) board, whenever the move is
valid (`col < 7` and `heights[col] < 6`, i.e. exactly when `make_move`
succeeds), `make_move` followed by `undo_move` on the same column restores
the grid and the height array exactly. -/
theorem make_undo_inverse (b : Board) (col : ℕ) (p : Char) (hs : Stacked b)
    (hcol : col < 7) (hh : b.heightAt col < 6) :
    (b.make_move col p).1 = true ∧
    ((b.make_move col p).2.undo_move col).2 = b := by
  have hd : Dims b := hs.1
  have hv : b.is_valid_move (col : ℤ) = true := by
    simp only [Board.is_valid_move, Bool.and_eq_true, decide_eq_true_iff,
      Int.toNat_natCast]
    refine ⟨⟨by omega, by omega⟩, hh⟩
  have hhl : col < b.heights.length := heightAt_lt_length hd hcol
  have hrow : 5 - b.heightAt col < 6 := by omega
  have hgl : 5 - b.heightAt col < b.grid.length := by rw [hd.1]; exact hrow
  have hmk : b.make_move (col : ℤ) p = (true, Board.mk
      (b.grid.set (5 - b.heightAt col)
        ((b.grid.getD (5 - b.heightAt col) []).set col p))
      (b.heights.set col (b.heightAt col + 1))) := by
    simp only [Board.make_move, hv, if_true, Int.toNat_natCast]
  refine ⟨by rw [hmk], ?_⟩
  rw [hmk]
  have hh' : (Board.mk
      (b.grid.set (5 - b.heightAt col)
        ((b.grid.getD (5 - b.heightAt col) []).set col p))
      (b.heights.set col (b.heightAt col + 1))).heightAt col =
      b.heightAt col + 1 := by
    simp [Board.heightAt, List.getD_eq_getElem?_getD, List.getElem?_set_self hhl]
  simp only [Board.undo_move, hh']
  rw [if_neg (by omega)]
  simp only [Nat.add_sub_cancel]
  have hgrow : (b.grid.set (5 - b.heightAt col)
      ((b.grid.getD (5 - b.heightAt col) []).set col p)).getD
        (5 - b.heightAt col) [] =
      (b.grid.getD (5 - b.heightAt col) []).set col p := by
    simp [List.getD_eq_getElem?_getD, List.getElem?_set_self hgl]
  rw [hgrow]
  have hcl : col < (b.grid.getD (5 - b.heightAt col) []).length := by
    rw [row_mem_grid hd hrow]; exact hcol
  have hcell : (b.grid.getD (5 - b.heightAt col) [])[col]? = some 'O' := by
    have hiff := (hs.2 col hcol).2 (5 - b.heightAt col) hrow
    have hO : b.cellAt (5 - b.heightAt col) col = 'O' := by
      by_contra hne
      exact absurd (hiff.mp hne) (by omega)
    rw [getElem?_eq_some_getD 'O' hcl]
    exact congrArg some hO
  have hts_eq : b.heights[col]? = some (b.heightAt col) := by
    rw [List.getElem?_eq_getElem hhl]
    simp [Board.heightAt, List.getD_eq_getElem?_getD,
      List.getElem?_eq_getElem hhl]
  have hgrid_eq : b.grid[5 - b.heightAt col]? =
      some (b.grid.getD (5 - b.heightAt col) []) := by
    rw [List.getElem?_eq_getElem hgl]
    simp [List.getD_eq_getElem?_getD, List.getElem?_eq_getElem hgl]
  simp only [List.set_set]
  rw [list_set_self _ _ _ hcell, list_set_self _ _ _ hgrid_eq,
    list_set_self _ _ _ hts_eq]

/-- Witness for the amended C4 on a concrete board and move. -/
theorem make_undo_inverse_witness :
    ((initBoard.make_move 0 'R').2.undo_move 0).2 = initBoard :=
  (make_undo_inverse initBoard 0 'R' (by decide) (by decide) (by decide)).2

/-! ## Pointwise descriptions of the two board mutators, and preservation
of the stacking invariant -/

theorem dims_make {b : Board} (hd : Dims b) (col : ℤ) (p : Char) :
    Dims (b.make_move col p).2 := by
  by_cases hv : b.is_valid_move col = true
  · simp only [Board.make_move, hv, if_true]
    have hrow : 5 - b.heightAt col.toNat < 6 := by omega
    refine ⟨by rw [List.length_set]; exact hd.1, ?_,
      by rw [List.length_set]; exact hd.2.2⟩
    intro r hr
    rcases List.mem_or_eq_of_mem_set hr with hmem | heq
    · exact hd.2.1 r hmem
    · rw [heq, List.length_set]
      exact row_mem_grid hd hrow
  · simp only [Board.make_move, hv, if_false, Bool.false_eq_true]
    exact hd

theorem dims_undo {b : Board} (hd : Dims b) (col : ℕ) :
    Dims (b.undo_move col).2 := by
  by_cases h0 : b.heightAt col = 0
  · simp only [Board.undo_move, h0, if_pos]
    exact hd
  · have hrow : 5 - (b.heightAt col - 1) < 6 := by omega
    simp only [Board.undo_move, h0, if_neg, if_false]
    refine ⟨by rw [List.length_set]; exact hd.1, ?_,
      by rw [List.length_set]; exact hd.2.2⟩
    intro r hr
    rcases List.mem_or_eq_of_mem_set hr with hmem | heq
    · exact hd.2.1 r hmem
    · rw [heq, List.length_set]
      exact row_mem_grid hd hrow

theorem heightAt_make {b : Board} (hd : Dims b) {col : ℤ} (h0 : 0 ≤ col)
    (h7 : col < 7) (hlt : b.heightAt col.toNat < 6) (p : Char) (c : ℕ) :
    (b.make_move col p).2.heightAt c =
      if c = col.toNat then b.heightAt col.toNat + 1 else b.heightAt c := by
  have hv : b.is_valid_move col = true := by
    simp [Board.is_valid_move, decide_eq_true_iff]
    exact ⟨⟨h0, h7⟩, hlt⟩
  have hhl : col.toNat < b.heights.length := heightAt_lt_length hd (by omega)
  simp only [Board.make_move, hv, if_true]
  by_cases hc : c = col.toNat
  · subst hc
    simp [Board.heightAt, List.getD_eq_getElem?_getD, List.getElem?_set_self hhl]
  · simp [hc, Board.heightAt, List.getD_eq_getElem?_getD,
      List.getElem?_set_ne (fun h => hc h.symm)]

theorem cellAt_make {b : Board} (hd : Dims b) {col : ℤ} (h0 : 0 ≤ col)
    (h7 : col < 7) (hlt : b.heightAt col.toNat < 6) (p : Char) (r c : ℕ) :
    (b.make_move col p).2.cellAt r c =
      if r = 5 - b.heightAt col.toNat ∧ c = col.toNat then p
      else b.cellAt r c := by
  have hv : b.is_valid_move col = true := by
    simp [Board.is_valid_move, decide_eq_true_iff]
    exact ⟨⟨h0, h7⟩, hlt⟩
  have hrow : 5 - b.heightAt col.toNat < 6 := by omega
  have hgl : 5 - b.heightAt col.toNat < b.grid.length := by rw [hd.1]; exact hrow
  have hcl : col.toNat < (b.grid.getD (5 - b.heightAt col.toNat) []).length := by
    rw [row_mem_grid hd hrow]; omega
  simp only [Board.make_move, hv, if_true]
  by_cases hr : r = 5 - b.heightAt col.toNat
  · subst hr
    by_cases hc : c = col.toNat
    · subst hc
      have hrl' : (b.grid[5 - b.heightAt col.toNat]?.getD []).length = 7 := by
        simpa [List.getD_eq_getElem?_getD] using row_mem_grid hd hrow
      have hcl2 : col.toNat < (b.grid[5 - b.heightAt col.toNat]?.getD []).length := by
        rw [hrl']; omega
      simp [Board.cellAt, List.getD_eq_getElem?_getD,
        List.getElem?_set_self hgl, List.getElem?_set_self hcl2]
    · simp [hc, Board.cellAt, List.getD_eq_getElem?_getD,
        List.getElem?_set_self hgl, List.getElem?_set_ne (fun h => hc h.symm)]
  · simp [hr, Board.cellAt, List.getD_eq_getElem?_getD,
      List.getElem?_set_ne (fun h => hr h.symm)]

theorem heightAt_undo {b : Board} (hd : Dims b) {col : ℕ} (hcol : col < 7)
    (hpos : b.heightAt col ≠ 0) (c : ℕ) :
    (b.undo_move col).2.heightAt c =
      if c = col then b.heightAt col - 1 else b.heightAt c := by
  have hhl : col < b.heights.length := heightAt_lt_length hd hcol
  simp only [Board.undo_move, hpos, if_neg, if_false]
  by_cases hc : c = col
  · subst hc
    simp [Board.heightAt, List.getD_eq_getElem?_getD, List.getElem?_set_self hhl]
  · simp [hc, Board.heightAt, List.getD_eq_getElem?_getD,
      List.getElem?_set_ne (fun h => hc h.symm)]

theorem cellAt_undo {b : Board} (hd : Dims b) {col : ℕ} (hcol : col < 7)
    (hpos : b.heightAt col ≠ 0) (r c : ℕ) :
    (b.undo_move col).2.cellAt r c =
      if r = 5 - (b.heightAt col - 1) ∧ c = col then 'O'
      else b.cellAt r c := by
  have hrow : 5 - (b.heightAt col - 1) < 6 := by omega
  have hgl : 5 - (b.heightAt col - 1) < b.grid.length := by rw [hd.1]; exact hrow
  simp only [Board.undo_move, hpos, if_neg, if_false]
  by_cases hr : r = 5 - (b.heightAt col - 1)
  · subst hr
    by_cases hc : c = col
    · subst hc
      have hrl' : (b.grid[5 - (b.heightAt c - 1)]?.getD []).length = 7 := by
        simpa [List.getD_eq_getElem?_getD] using row_mem_grid hd hrow
      have hcl2 : c < (b.grid[5 - (b.heightAt c - 1)]?.getD []).length := by
        rw [hrl']; omega
      simp [Board.cellAt, List.getD_eq_getElem?_getD,
        List.getElem?_set_self hgl, List.getElem?_set_self hcl2]
    · simp [hc, Board.cellAt, List.getD_eq_getElem?_getD,
        List.getElem?_set_self hgl, List.getElem?_set_ne (fun h => hc h.symm)]
  · simp [hr, Board.cellAt, List.getD_eq_getElem?_getD,
      List.getElem?_set_ne (fun h => hr h.symm)]

theorem stacked_make {b : Board} (hs : Stacked b) (col : ℤ) {p : Char}
    (hp : p ≠ 'O') : Stacked (b.make_move col p).2 := by
  have hd : Dims b := hs.1
  by_cases hv : b.is_valid_move col = true
  · have hcond : 0 ≤ col ∧ col < 7 ∧ b.heightAt col.toNat < 6 := by
      simpa [Board.is_valid_move, decide_eq_true_iff, and_assoc] using hv
    obtain ⟨h0, h7, hlt⟩ := hcond
    refine ⟨dims_make hd col p, ?_⟩
    intro c hc
    rw [heightAt_make hd h0 h7 hlt p c]
    by_cases hceq : c = col.toNat
    · rw [if_pos hceq]
      refine ⟨by omega, ?_⟩
      intro r hr
      rw [cellAt_make hd h0 h7 hlt p r c]
      by_cases hreq : r = 5 - b.heightAt col.toNat
      · rw [if_pos ⟨hreq, hceq⟩]
        constructor
        · intro _; omega
        · intro _; exact hp
      · rw [if_neg (fun hand => hreq hand.1)]
        have hiff := (hs.2 c hc).2 r hr
        rw [hiff, hceq]
        omega
    · rw [if_neg hceq]
      refine ⟨(hs.2 c hc).1, ?_⟩
      intro r hr
      rw [cellAt_make hd h0 h7 hlt p r c]
      rw [if_neg (fun hand => hceq hand.2)]
      exact (hs.2 c hc).2 r hr
  · have : b.make_move col p = (false, b) := by
      simp [Board.make_move, hv]
    rw [this]
    exact hs

theorem stacked_undo {b : Board} (hs : Stacked b) {col : ℕ} (hcol : col < 7) :
    Stacked (b.undo_move col).2 := by
  have hd : Dims b := hs.1
  by_cases h0 : b.heightAt col = 0
  · have : b.undo_move col = (false, b) := by simp [Board.undo_move, h0]
    rw [this]
    exact hs
  · have hle : b.heightAt col ≤ 6 := (hs.2 col hcol).1
    refine ⟨dims_undo hd col, ?_⟩
    intro c hc
    rw [heightAt_undo hd hcol h0 c]
    by_cases hceq : c = col
    · rw [if_pos hceq]
      refine ⟨by omega, ?_⟩
      intro r hr
      rw [cellAt_undo hd hcol h0 r c]
      by_cases hreq : r = 5 - (b.heightAt col - 1)
      · rw [if_pos ⟨hreq, hceq⟩]
        constructor
        · intro hO; exact absurd rfl hO
        · intro hle2; exact absurd hle2 (by omega)
      · rw [if_neg (fun hand => hreq hand.1)]
        have hiff := (hs.2 c hc).2 r hr
        rw [hiff, hceq]
        omega
    · rw [if_neg hceq]
      refine ⟨(hs.2 c hc).1, ?_⟩
      intro r hr
      rw [cellAt_undo hd hcol h0 r c]
      rw [if_neg (fun hand => hceq hand.2)]
      exact (hs.2 c hc).2 r hr

theorem reachable_stacked {b : Board} (hb : Reachable b) : Stacked b := by
  induction hb with
  | init => decide
  | make col player hcol hp hb ih =>
    refine stacked_make ih col ?_
    rcases hp with h | h <;> rw [h] <;> decide
  | undo col hcol hb ih => exact stacked_undo ih hcol

/-- C9: starting from the empty board, after any sequence of `make_move`
and `undo_move` calls on columns `0..6` with genuine player tokens,
`heights[c]` equals the number of non-empty cells in column `c`, for every
column. -/
theorem heights_count_invariant (b : Board) (hb : Reachable b) :
    ∀ c < 7, b.heightAt c = colCount b c := by
  have hs := reachable_stacked hb
  intro c hc
  have hfe : ∀ r ∈ List.range 6,
      (decide (b.cellAt r c ≠ 'O')) = (decide (6 - b.heightAt c ≤ r)) := by
    intro r hr
    rw [List.mem_range] at hr
    exact decide_eq_decide.mpr ((hs.2 c hc).2 r hr)
  rw [colCount, List.filter_congr hfe]
  have hle : b.heightAt c ≤ 6 := (hs.2 c hc).1
  set n := b.heightAt c with hn
  clear_value n
  interval_cases n <;> decide

/-- Witness for C9 at the empty board. -/
theorem heights_count_invariant_witness :
    initBoard.heightAt 0 = colCount initBoard 0 :=
  heights_count_invariant initBoard Reachable.init 0 (by decide)

/-! ## C2: terminal detection -/

/-- Spec-side predicate: `player` occupies four contiguous cells in a row,
a column, or either diagonal. -/
def HasFour (b : Board) (player : Char) : Prop :=
  (∃ r < 6, ∃ c < 4, ∀ i < 4, b.cellAt r (c + i) = player) ∨
  (∃ r < 3, ∃ c < 7, ∀ i < 4, b.cellAt (r + i) c = player) ∨
  (∃ r < 3, ∃ c < 4, ∀ i < 4, b.cellAt (r + i) (c + i) = player) ∨
  (∃ r < 3, ∃ c < 7, 3 ≤ c ∧ ∀ i < 4, b.cellAt (r + i) (c - i) = player)

instance : ∀ b p, Decidable (HasFour b p) := fun b p => by
  unfold HasFour; infer_instance

theorem check_win_iff (b : Board) (p : Char) :
    b.check_win p = true ↔ HasFour b p := by
  simp only [Board.check_win, HasFour, Bool.or_eq_true, List.any_eq_true,
    List.all_eq_true, List.mem_range, List.mem_range', decide_eq_true_iff]
  constructor
  · rintro (((⟨r, hr, c, hc, h4⟩ | ⟨r, hr, c, hc, h4⟩) | ⟨r, hr, c, hc, h4⟩) |
      ⟨r, hr, c, hc, h4⟩)
    · exact Or.inl ⟨r, hr, c, hc, h4⟩
    · exact Or.inr (Or.inl ⟨r, hr, c, hc, h4⟩)
    · exact Or.inr (Or.inr (Or.inl ⟨r, hr, c, hc, h4⟩))
    · obtain ⟨i, hi, hci⟩ := hc
      exact Or.inr (Or.inr (Or.inr ⟨r, hr, c, by omega, by omega,
        fun j hj => h4 j hj⟩))
  · rintro (⟨r, hr, c, hc, h4⟩ | ⟨r, hr, c, hc, h4⟩ | ⟨r, hr, c, hc, h4⟩ |
      ⟨r, hr, c, hc7, hc3, h4⟩)
    · exact Or.inl (Or.inl (Or.inl ⟨r, hr, c, hc, h4⟩))
    · exact Or.inl (Or.inl (Or.inr ⟨r, hr, c, hc, h4⟩))
    · exact Or.inl (Or.inr ⟨r, hr, c, hc, h4⟩)
    · exact Or.inr ⟨r, hr, c, ⟨c - 3, by omega, by omega⟩, h4⟩

/-- C2: `is_terminal` yields `(true, 1)` exactly when Yellow has four in a
row (Yellow is checked first, so Yellow takes precedence when both sides
have four); `(true, -1)` exactly when Red has four and Yellow does not;
`(true, 0)` exactly when all seven heights equal 6 and neither side has
four; and `(false, 0)` otherwise. -/
theorem is_terminal_spec (b : Board) (hd : Dims b) :
    (b.is_terminal = (true, 1) ↔ HasFour b 'Y') ∧
    (b.is_terminal = (true, -1) ↔ (¬ HasFour b 'Y' ∧ HasFour b 'R')) ∧
    (b.is_terminal = (true, 0) ↔
      (¬ HasFour b 'Y' ∧ ¬ HasFour b 'R' ∧ ∀ c < 7, b.heightAt c = 6)) ∧
    (b.is_terminal = (false, 0) ↔
      (¬ HasFour b 'Y' ∧ ¬ HasFour b 'R' ∧ ¬ ∀ c < 7, b.heightAt c = 6)) := by
  have hfull : b.is_full = true ↔ ∀ c < 7, b.heightAt c = 6 := by
    simp only [Board.is_full, List.all_eq_true, decide_eq_true_iff]
    constructor
    · intro h c hc
      have hcl : c < b.heights.length := heightAt_lt_length hd hc
      have : b.heights[c] ∈ b.heights := List.getElem_mem hcl
      have := h _ this
      simp [Board.heightAt, List.getD_eq_getElem?_getD,
        List.getElem?_eq_getElem hcl, this]
    · intro h x hx
      obtain ⟨i, hi, hxi⟩ := List.mem_iff_getElem.mp hx
      have hi7 : i < 7 := by rw [← hd.2.2]; exact hi
      have := h i hi7
      simp only [Board.heightAt, List.getD_eq_getElem?_getD,
        List.getElem?_eq_getElem hi, Option.getD_some] at this
      rw [← hxi, this]
  by_cases hy : b.check_win 'Y' = true <;>
    by_cases hr : b.check_win 'R' = true <;>
    by_cases hf : b.is_full = true <;>
    simp [Board.is_terminal, hy, hr, hf, ← check_win_iff, ← hfull]

/-- Witness for C2 on the empty board. -/
theorem is_terminal_spec_witness : initBoard.is_terminal = (false, 0) :=
  ((is_terminal_spec initBoard (by decide)).2.2.2).mpr (by decide)

/-! ## C6, C7, C8: game simulator and tournament pairing -/

theorem make_move_failed_eq {b : Board} {mv : ℤ} {p : Char}
    (h : (b.make_move mv p).1 = false) : (b.make_move mv p).2 = b := by
  unfold Board.make_move at h ⊢
  by_cases hv : b.is_valid_move mv = true
  · rw [if_pos hv] at h
    exact absurd h (by simp)
  · rw [if_neg hv]

/-- C6: in any iteration of the shared game loop of `Tournament.play_game`
and `_play_game_worker` (each iteration is one call of `playGameLoop`), if
the current mover's selector answers `-1` or the board rejects the proposed
move, the loop returns at once — no further moves are recorded — with the
opposing side as winner, and a rejected `make_move` leaves the board
unchanged. -/
theorem immediate_loss_spec (selR selY : Selector) (fuel : ℕ) (b : Board)
    (p : Char) (g : RNG)
    (h : ((if p = 'R' then selR else selY) b p g).1 = -1 ∨
      (b.make_move ((if p = 'R' then selR else selY) b p g).1 p).1 = false) :
    (playGameLoop selR selY fuel b p g).1 = (if p = 'R' then "Y" else "R") ∧
    (playGameLoop selR selY fuel b p g).2.1 = [] ∧
    ((b.make_move ((if p = 'R' then selR else selY) b p g).1 p).1 = false →
      (b.make_move ((if p = 'R' then selR else selY) b p g).1 p).2 = b) := by
  refine ⟨?_, ?_, fun hf => make_move_failed_eq hf⟩ <;>
  · rw [playGameLoop]
    by_cases hm : ((if p = 'R' then selR else selY) b p g).1 = -1
    · simp only [hm, if_pos]
    · rcases h with h | h
      · exact absurd h hm
      · simp only [hm, if_neg, if_false, h, if_pos]

/-- Witness for C6: a selector that immediately resigns. -/
theorem immediate_loss_spec_witness :
    (playGameLoop (fun _ _ g => (-1, g)) (fun _ _ g => (-1, g)) 42 initBoard
      'R' (fun _ => 0)).1 = "Y" :=
  (immediate_loss_spec (fun _ _ g => (-1, g)) (fun _ _ g => (-1, g)) 42
    initBoard 'R' (fun _ => 0) (Or.inl rfl)).1

/-- C7: two `_play_game_worker` calls with the same specs and the same
(non-`None`) seed return the same winner and the same full move sequence,
whatever the ambient generator state of each worker process was: seeding
makes the game a function of the two selector configurations and the seed
alone. -/
theorem worker_deterministic (red_spec yellow_spec : AlgoSpec) (s : ℤ)
    (g0 g1 : RNG) :
    play_game_worker red_spec yellow_spec (some s) g0 =
      play_game_worker red_spec yellow_spec (some s) g1 := rfl

theorem pairOutcomes_length (sRow sCol : AlgoSpec) :
    ∀ (N idx : ℕ) (g : RNG), (pairOutcomes sRow sCol idx N g).length = N := by
  intro N
  induction N with
  | zero => intro idx g; rfl
  | succ n ih =>
    intro idx g
    rw [pairOutcomes]
    by_cases hp : idx % 2 = 0 <;> simp [hp, ih]

theorem runPairLoop_eq (sRow sCol : AlgoSpec) :
    ∀ (N idx : ℕ) (g : RNG) (rw d : ℕ),
      runPairLoop sRow sCol idx N g rw d =
        (rw + rowWinCount idx (pairOutcomes sRow sCol idx N g),
         d + (pairOutcomes sRow sCol idx N g).countP (fun w => w = "Draw")) := by
  intro N
  induction N with
  | zero => intro idx g rw d; simp [runPairLoop, pairOutcomes, rowWinCount]
  | succ n ih =>
    intro idx g rw d
    rw [runPairLoop, pairOutcomes]
    by_cases hp : idx % 2 = 0
    · simp only [hp, if_pos, ih, rowWinCount, List.countP_cons, rowColorStr]
      by_cases hR : (play_game sRow sCol g).1 = "R"
      · simp [hR]
        omega
      · by_cases hD : (play_game sRow sCol g).1 = "Draw"
        · have : ¬ ("Draw" : String) = "R" := by decide
          simp [hR, hD, this]
          omega
        · simp [hR, hD]
    · simp only [hp, if_neg, if_false, ih, rowWinCount, List.countP_cons,
        rowColorStr]
      by_cases hY : (play_game sCol sRow g).1 = "Y"
      · simp [hY]
        omega
      · by_cases hD : (play_game sCol sRow g).1 = "Draw"
        · have : ¬ ("Draw" : String) = "Y" := by decide
          simp [hY, hD, this]
          omega
        · simp [hY, hD]

/-- C8: `_run_pair_sequential` plays exactly `N` games, the row algorithm
playing Red in the even-indexed ones and Yellow in the odd-indexed ones; a
game counts toward `row_wins` exactly when its winner token is the color
the row algorithm played and toward `draws` exactly when it is `"Draw"`,
and the returned score is `((row_wins + 0.5 * draws) / N) * 100`. -/
theorem run_pair_sequential_spec (sRow sCol : AlgoSpec) (N : ℕ) (g : RNG)
    (hN : 1 ≤ N) :
    (pairOutcomes sRow sCol 0 N g).length = N ∧
    run_pair_sequential sRow sCol N g =
      (((rowWinCount 0 (pairOutcomes sRow sCol 0 N g) : ℚ) +
        (1 / 2) *
          ((pairOutcomes sRow sCol 0 N g).countP (fun w => w = "Draw") : ℚ)) /
        (N : ℚ)) * 100 := by
  refine ⟨pairOutcomes_length sRow sCol N 0 g, ?_⟩
  rw [run_pair_sequential, runPairLoop_eq]
  rw [if_neg (by omega)]
  simp

/-- Witness for C8 with one uniform-random versus uniform-random game. -/
theorem run_pair_sequential_spec_witness :
    (pairOutcomes ⟨AKind.UR, 0⟩ ⟨AKind.UR, 0⟩ 0 1 (fun _ => 0)).length = 1 :=
  (run_pair_sequential_spec ⟨AKind.UR, 0⟩ ⟨AKind.UR, 0⟩ 1 (fun _ => 0)
    (by decide)).1

/-! ## C5: the final-selection error branch is unreachable -/

theorem simLeaf_ni (b : Board) (n : MCTSNode) (g : RNG) :
    (simLeaf b n g).1.ni = n.ni + 1 := by
  simp [simLeaf, MCTSNode.visited, MCTSNode.ni]

theorem simStep_ni (b : Board) (n : MCTSNode) (g : RNG) :
    (simStep b n g).1.ni = n.ni + 1 := by
  unfold simStep
  split
  · simp [simExpand, MCTSNode.ni]
  · exact simLeaf_ni b n g

theorem runSimulation_ni (P : SelPolicy) (b : Board) (n : MCTSNode) (g : RNG) :
    (runSimulation P b n g).1.ni = n.ni + 1 := by
  rw [runSimulation]
  by_cases hsel : (n.is_fully_expanded = true ∧ ¬ n.children.isEmpty = true)
  · rw [if_pos hsel]
    dsimp only []
    split
    · simp [MCTSNode.ni]
    · exact simLeaf_ni b n _
  · rw [if_neg hsel]
    exact simStep_ni b n g

theorem getD_mod_mem (l : List ℤ) (k : ℕ) (hne : l ≠ []) :
    l.getD (k % l.length) 0 ∈ l := by
  have hlen : 0 < l.length := List.length_pos.mpr hne
  have hlt : k % l.length < l.length := Nat.mod_lt _ hlen
  rw [List.getD_eq_getElem?_getD, List.getElem?_eq_getElem hlt]
  exact List.getElem_mem hlt

theorem simLeaf_children (b : Board) (n : MCTSNode) (g : RNG) :
    (simLeaf b n g).1.children = n.children := by
  simp [simLeaf, MCTSNode.visited, MCTSNode.children]

theorem simLeaf_untried (b : Board) (n : MCTSNode) (g : RNG) :
    (simLeaf b n g).1.untried_moves = n.untried_moves := by
  simp [simLeaf, MCTSNode.visited, MCTSNode.untried_moves]

theorem simExpand_children (b : Board) (n : MCTSNode) (g : RNG) :
    ∃ mv nd, (simExpand b n g).1.children = n.children ++ [(mv, nd)] ∧
      nd.ni = 1 ∧
      mv = n.untried_moves.getD ((g.next).1 % n.untried_moves.length) 0 :=
  ⟨_, _, rfl, rfl, rfl⟩

theorem simStep_root (b : Board) (n : MCTSNode) (g : RNG) :
    (∀ q ∈ (simStep b n g).1.children,
        q.1 ∈ n.children.map Prod.fst ∨ q.1 ∈ n.untried_moves) ∧
    (∀ u ∈ (simStep b n g).1.untried_moves, u ∈ n.untried_moves) ∧
    ((∃ q ∈ n.children, 1 ≤ q.2.ni) →
      ∃ q ∈ (simStep b n g).1.children, 1 ≤ q.2.ni) ∧
    ((n.untried_moves ≠ [] ∧ (b.is_terminal).1 = false) →
      ∃ q ∈ (simStep b n g).1.children, 1 ≤ q.2.ni) := by
  unfold simStep
  by_cases hexp : (¬ (b.is_terminal).1 = true ∧ ¬ n.untried_moves.isEmpty = true)
  · rw [if_pos hexp]
    have hne : n.untried_moves ≠ [] := by
      intro hnil
      exact hexp.2 (by rw [hnil]; rfl)
    have hmv : n.untried_moves.getD
        ((g.next).1 % n.untried_moves.length) 0 ∈ n.untried_moves :=
      getD_mod_mem _ _ hne
    obtain ⟨mv, nd, hsh, hni1, hmveq⟩ := simExpand_children b n g
    refine ⟨?_, ?_, ?_, ?_⟩
    · intro q hq
      rw [hsh] at hq
      rcases List.mem_append.mp hq with hql | hqr
      · exact Or.inl (List.mem_map_of_mem Prod.fst hql)
      · rcases List.mem_singleton.mp hqr with rfl
        rw [hmveq]
        exact Or.inr hmv
    · intro u hu
      simp only [simExpand, MCTSNode.untried_moves] at hu
      exact List.mem_of_mem_erase hu
    · intro _
      refine ⟨(mv, nd), ?_, ?_⟩
      · rw [hsh]
        exact List.mem_append_right _ (List.mem_singleton.mpr rfl)
      · show 1 ≤ nd.ni
        omega
    · intro _
      refine ⟨(mv, nd), ?_, ?_⟩
      · rw [hsh]
        exact List.mem_append_right _ (List.mem_singleton.mpr rfl)
      · show 1 ≤ nd.ni
        omega
  · rw [if_neg hexp]
    refine ⟨?_, ?_, ?_, ?_⟩
    · intro q hq
      rw [simLeaf_children] at hq
      exact Or.inl (List.mem_map_of_mem Prod.fst hq)
    · intro u hu
      rw [simLeaf_untried] at hu
      exact hu
    · intro hex
      rw [simLeaf_children]
      exact hex
    · intro hcond
      exfalso
      apply hexp
      refine ⟨by rw [hcond.2]; simp, ?_⟩
      simp [List.isEmpty_iff, hcond.1]

theorem runSimulation_root (P : SelPolicy) (b : Board) (n : MCTSNode) (g : RNG) :
    (∀ q ∈ (runSimulation P b n g).1.children,
        q.1 ∈ n.children.map Prod.fst ∨ q.1 ∈ n.untried_moves) ∧
    (∀ u ∈ (runSimulation P b n g).1.untried_moves, u ∈ n.untried_moves) ∧
    ((∃ q ∈ n.children, 1 ≤ q.2.ni) →
      ∃ q ∈ (runSimulation P b n g).1.children, 1 ≤ q.2.ni) ∧
    ((n.untried_moves ≠ [] ∧ (b.is_terminal).1 = false) →
      ∃ q ∈ (runSimulation P b n g).1.children, 1 ≤ q.2.ni) := by
  rw [runSimulation]
  by_cases hsel : (n.is_fully_expanded = true ∧ ¬ n.children.isEmpty = true)
  · rw [if_pos hsel]
    dsimp only []
    split
    · next im kc h =>
      rcases Option.bind_eq_some.mp h with ⟨im', him', hmap⟩
      rcases Option.map_eq_some'.mp hmap with ⟨kc', hkc', heq⟩
      cases heq
      have hkcmem : kc ∈ n.children := List.get?_mem hkc'
      have hlt : im.1 < n.children.length := by
        by_contra hge
        rw [List.get?_eq_getElem?, List.getElem?_eq_none (by omega)] at hkc'
        exact Option.noConfusion hkc'
      have hni : 1 ≤ (runSimulation P (b.make_move im.2 n.player_to_move).2
          kc.2 (P n g).2).1.ni := by
        rw [runSimulation_ni]
        omega
      have hmem_new : (kc.1,
          (runSimulation P (b.make_move im.2 n.player_to_move).2
            kc.2 (P n g).2).1) ∈
          n.children.set im.1 (kc.1,
            (runSimulation P (b.make_move im.2 n.player_to_move).2
              kc.2 (P n g).2).1) := by
        apply List.get?_mem (n := im.1)
        rw [List.get?_eq_getElem?]
        exact List.getElem?_set_self hlt
      refine ⟨?_, ?_, fun _ => ?_, fun _ => ?_⟩
      · intro q hq
        simp only [MCTSNode.children] at hq
        rcases List.mem_or_eq_of_mem_set hq with hmem | hqeq
        · exact Or.inl (List.mem_map_of_mem Prod.fst hmem)
        · rw [hqeq]
          have hmapped := List.mem_map_of_mem Prod.fst hkcmem
          exact Or.inl hmapped
      · intro u hu
        simp only [MCTSNode.untried_moves] at hu
        exact hu
      · exact ⟨_, by simpa only [MCTSNode.children] using hmem_new, hni⟩
      · exact ⟨_, by simpa only [MCTSNode.children] using hmem_new, hni⟩
    · next h =>
      refine ⟨?_, ?_, ?_, ?_⟩
      · intro q hq
        rw [simLeaf_children] at hq
        exact Or.inl (List.mem_map_of_mem Prod.fst hq)
      · intro u hu
        rw [simLeaf_untried] at hu
        exact hu
      · intro hex
        rw [simLeaf_children]
        exact hex
      · intro hcond
        exfalso
        have hemp : n.untried_moves = [] := by
          have := hsel.1
          simpa [MCTSNode.is_fully_expanded] using this
        exact hcond.1 hemp
  · rw [if_neg hsel]
    exact simStep_root b n g

theorem simLoop_inv (P : SelPolicy) (b : Board) :
    ∀ (m : ℕ) (n : MCTSNode) (g : RNG),
      (∀ q ∈ n.children, q.1 ∈ b.get_legal_moves) →
      (∀ u ∈ n.untried_moves, u ∈ b.get_legal_moves) →
      (∀ q ∈ (simLoop P b m n g).1.children, q.1 ∈ b.get_legal_moves) ∧
      (∀ u ∈ (simLoop P b m n g).1.untried_moves, u ∈ b.get_legal_moves) ∧
      ((∃ q ∈ n.children, 1 ≤ q.2.ni) →
        ∃ q ∈ (simLoop P b m n g).1.children, 1 ≤ q.2.ni) := by
  intro m
  induction m with
  | zero =>
    intro n g hkeys hunt
    exact ⟨hkeys, hunt, fun hex => hex⟩
  | succ m ih =>
    intro n g hkeys hunt
    rw [simLoop]
    have hroot := runSimulation_root P b n g
    have hkeys' : ∀ q ∈ (runSimulation P b n g).1.children,
        q.1 ∈ b.get_legal_moves := by
      intro q hq
      rcases hroot.1 q hq with hk | hu
      · rcases List.mem_map.mp hk with ⟨q0, hq0, hq01⟩
        rw [← hq01]
        exact hkeys q0 hq0
      · exact hunt _ hu
    have hunt' : ∀ u ∈ (runSimulation P b n g).1.untried_moves,
        u ∈ b.get_legal_moves := fun u hu => hunt u (hroot.2.1 u hu)
    refine ⟨(ih _ _ hkeys' hunt').1, (ih _ _ hkeys' hunt').2.1, ?_⟩
    intro hex
    exact (ih _ _ hkeys' hunt').2.2 (hroot.2.2.1 hex)

theorem simLoop_exists (P : SelPolicy) (b : Board) (m : ℕ) (n : MCTSNode)
    (g : RNG) (hm : 1 ≤ m)
    (hkeys : ∀ q ∈ n.children, q.1 ∈ b.get_legal_moves)
    (hunt : ∀ u ∈ n.untried_moves, u ∈ b.get_legal_moves)
    (huntne : n.untried_moves ≠ []) (hterm : (b.is_terminal).1 = false) :
    ∃ q ∈ (simLoop P b m n g).1.children, 1 ≤ q.2.ni := by
  obtain ⟨m', rfl⟩ : ∃ m', m = m' + 1 := ⟨m - 1, by omega⟩
  rw [simLoop]
  have hroot := runSimulation_root P b n g
  have hfirst := hroot.2.2.2 ⟨huntne, hterm⟩
  have hkeys' : ∀ q ∈ (runSimulation P b n g).1.children,
      q.1 ∈ b.get_legal_moves := by
    intro q hq
    rcases hroot.1 q hq with hk | hu
    · rcases List.mem_map.mp hk with ⟨q0, hq0, hq01⟩
      rw [← hq01]
      exact hkeys q0 hq0
    · exact hunt _ hu
  have hunt' : ∀ u ∈ (runSimulation P b n g).1.untried_moves,
      u ∈ b.get_legal_moves := fun u hu => hunt u (hroot.2.1 u hu)
  exact (simLoop_inv P b m' _ _ hkeys' hunt').2.2 hfirst

theorem finalGo_acc_mem (player : Char) :
    ∀ (l : List (ℤ × MCTSNode)) (bm : ℤ) (bc : Option MCTSNode)
      (bv : Option ℚ),
      (MCTSNode.finalGo player l (bm, bc, bv)).1 = bm ∨
        (MCTSNode.finalGo player l (bm, bc, bv)).1 ∈ l.map Prod.fst := by
  intro l
  induction l with
  | nil => intro bm bc bv; exact Or.inl rfl
  | cons q rest ih =>
    intro bm bc bv
    obtain ⟨mv, c⟩ := q
    rw [MCTSNode.finalGo]
    by_cases hni : c.ni > 0
    · rw [if_pos hni]
      dsimp only []
      by_cases hadopt : (match bv with
          | none => true
          | some v => if player = 'Y' then decide (c.wi / (c.ni : ℚ) > v)
            else decide (c.wi / (c.ni : ℚ) < v)) = true
      · rw [if_pos hadopt]
        rcases ih mv (some c) (some (c.wi / (c.ni : ℚ))) with h | h
        · rw [h]
          exact Or.inr (by simp)
        · exact Or.inr (List.mem_cons_of_mem _ h)
      · rw [if_neg hadopt]
        rcases ih bm bc bv with h | h
        · exact Or.inl h
        · exact Or.inr (List.mem_cons_of_mem _ h)
    · rw [if_neg hni]
      rcases ih bm bc bv with h | h
      · exact Or.inl h
      · exact Or.inr (List.mem_cons_of_mem _ h)

theorem finalGo_mem_of_exists (player : Char) :
    ∀ (l : List (ℤ × MCTSNode)) (bm : ℤ) (bc : Option MCTSNode),
      (∃ q ∈ l, 1 ≤ q.2.ni) →
      (MCTSNode.finalGo player l (bm, bc, none)).1 ∈ l.map Prod.fst := by
  intro l
  induction l with
  | nil =>
    intro bm bc hex
    obtain ⟨q, hq, _⟩ := hex
    exact absurd hq (List.not_mem_nil q)
  | cons q rest ih =>
    intro bm bc hex
    obtain ⟨mv, c⟩ := q
    rw [MCTSNode.finalGo]
    by_cases hni : c.ni > 0
    · rw [if_pos hni]
      dsimp only []
      rw [if_pos rfl]
      rcases finalGo_acc_mem player rest mv (some c)
          (some (c.wi / (c.ni : ℚ))) with h | h
      · rw [h]
        simp
      · exact List.mem_cons_of_mem _ h
    · rw [if_neg hni]
      obtain ⟨q0, hq0, hq0ni⟩ := hex
      rcases List.mem_cons.mp hq0 with heq | hmem
      · exfalso
        rw [heq] at hq0ni
        exact hni (by simpa using hq0ni)
      · exact List.mem_cons_of_mem _ (ih bm bc ⟨q0, hmem, hq0ni⟩)

theorem best_child_final_mem (n : MCTSNode)
    (hex : ∃ q ∈ n.children, 1 ≤ q.2.ni) :
    (n.best_child_final).1 ∈ n.children.map Prod.fst :=
  finalGo_mem_of_exists n.player_to_move n.children (-1) none hex

theorem mem_legal_moves_nonneg (b : Board) :
    ∀ m ∈ b.get_legal_moves, 0 ≤ m := by
  intro m hm
  unfold Board.get_legal_moves at hm
  rw [List.mem_filter] at hm
  rcases List.mem_map.mp hm.1 with ⟨k, _, hkm⟩
  subst hkm
  exact Int.natCast_nonneg k

theorem selectMoveCore_legal (P : SelPolicy) (b : Board) (player : Char)
    (num : ℕ) (g : RNG) (hn : 1 ≤ num)
    (hterm : (b.is_terminal).1 = false) (hleg : b.get_legal_moves ≠ []) :
    (selectMoveCore P b player num g).1 ∈ b.get_legal_moves := by
  unfold selectMoveCore
  dsimp only []
  have hkeys : ∀ q ∈ (MCTSNode.mk 0 0 b.get_legal_moves player none
      []).children, q.1 ∈ b.get_legal_moves := by
    intro q hq
    simp [MCTSNode.children] at hq
  have hunt : ∀ u ∈ (MCTSNode.mk 0 0 b.get_legal_moves player none
      []).untried_moves, u ∈ b.get_legal_moves := by
    intro u hu
    simpa [MCTSNode.untried_moves] using hu
  have huntne : (MCTSNode.mk 0 0 b.get_legal_moves player none
      []).untried_moves ≠ [] := by
    simpa [MCTSNode.untried_moves] using hleg
  have hex := simLoop_exists P b num _ g hn hkeys hunt huntne hterm
  have hinv := simLoop_inv P b num _ g hkeys hunt
  have hmem := best_child_final_mem _ hex
  rcases List.mem_map.mp hmem with ⟨q, hq, hq1⟩
  rw [← hq1]
  exact hinv.1 q hq

/-- C5: on a non-terminal board with at least one legal move and a
simulation budget of at least one, both `PMCGSAlgorithm.select_move` and
`UCTAlgorithm.select_move` return a column that is one of the board's legal
moves (a key of the root's children) and never the `-1` sentinel: the
"no child has any visits" error branch of `best_child_final` is
unreachable under these preconditions. -/
theorem select_move_legal (b : Board) (player : Char) (num : ℕ) (g : RNG)
    (hn : 1 ≤ num) (hterm : (b.is_terminal).1 = false)
    (hleg : b.get_legal_moves ≠ []) :
    ((pmcgs_select_move b player num g).1 ∈ b.get_legal_moves ∧
      (pmcgs_select_move b player num g).1 ≠ -1) ∧
    ((uct_select_move b player num g).1 ∈ b.get_legal_moves ∧
      (uct_select_move b player num g).1 ≠ -1) := by
  have hp : (pmcgs_select_move b player num g).1 ∈ b.get_legal_moves :=
    selectMoveCore_legal pmcgsPolicy b player num g hn hterm hleg
  have hu : (uct_select_move b player num g).1 ∈ b.get_legal_moves :=
    selectMoveCore_legal uctPolicy b player num g hn hterm hleg
  refine ⟨⟨hp, ?_⟩, ⟨hu, ?_⟩⟩
  · intro heq
    have := mem_legal_moves_nonneg b _ hp
    rw [heq] at this
    omega
  · intro heq
    have := mem_legal_moves_nonneg b _ hu
    rw [heq] at this
    omega

/-- Witness for C5: one simulation on the empty board. -/
theorem select_move_legal_witness :
    (pmcgs_select_move initBoard 'R' 1 (fun _ => 0)).1 ∈
      initBoard.get_legal_moves :=
  ((select_move_legal initBoard 'R' 1 (fun _ => 0) (by decide) (by decide)
    (by decide)).1).1

/-! ## C1: the exploration-selection rule `best_child` -/

theorem argBestGo_acc {α : Type} (better : ℝ → ℝ → Prop) (f : α → ℝ)
    (Hirr : ∀ x : ℝ, ¬ better x x)
    (Hasym : ∀ {x y : ℝ}, better x y → ¬ better y x)
    (Htrans : ∀ {x y z : ℝ}, better x y → better y z → better x z)
    (Hlink : ∀ {x y z : ℝ}, better x z → ¬ better y z → better x y) :
    ∀ (l : List (ℕ × α)) (i0 : ℕ) (v0 : ℝ) (r : ℕ),
      MCTSNode.argBestGo better f l (some (i0, v0)) = some r →
      (r = i0 ∧ ∀ q ∈ l, ¬ better (f q.2) v0) ∨
      (∃ l₁ p l₂, l = l₁ ++ p :: l₂ ∧ p.1 = r ∧ better (f p.2) v0 ∧
        (∀ q ∈ l, ¬ better (f q.2) (f p.2)) ∧
        (∀ q ∈ l₁, better (f p.2) (f q.2))) := by
  intro l
  induction l with
  | nil =>
    intro i0 v0 r h
    rw [MCTSNode.argBestGo] at h
    exact Or.inl ⟨(Option.some_inj.mp h).symm, fun q hq => absurd hq
      (List.not_mem_nil q)⟩
  | cons ja rest ih =>
    intro i0 v0 r h
    obtain ⟨j, a⟩ := ja
    rw [MCTSNode.argBestGo] at h
    dsimp only [] at h
    by_cases hb : better (f a) v0
    · rw [if_pos hb] at h
      rcases ih j (f a) r h with ⟨hr, hrest⟩ | ⟨l₁, p, l₂, hdec, hp1, hpv, hall, hpre⟩
      · refine Or.inr ⟨[], (j, a), rest, rfl, hr ▸ rfl, hb, ?_, ?_⟩
        · intro q hq
          rcases List.mem_cons.mp hq with rfl | hmem
          · exact Hirr _
          · exact hrest q hmem
        · intro q hq
          exact absurd hq (List.not_mem_nil q)
      · refine Or.inr ⟨(j, a) :: l₁, p, l₂, by rw [hdec]; rfl, hp1,
          Htrans hpv hb, ?_, ?_⟩
        · intro q hq
          rcases List.mem_cons.mp hq with rfl | hmem
          · exact Hasym hpv
          · exact hall q (hdec ▸ hmem)
        · intro q hq
          rcases List.mem_cons.mp hq with rfl | hmem
          · exact hpv
          · exact hpre q hmem
    · rw [if_neg hb] at h
      rcases ih i0 v0 r h with ⟨hr, hrest⟩ | ⟨l₁, p, l₂, hdec, hp1, hpv, hall, hpre⟩
      · refine Or.inl ⟨hr, ?_⟩
        intro q hq
        rcases List.mem_cons.mp hq with rfl | hmem
        · exact hb
        · exact hrest q hmem
      · have hpa : better (f p.2) (f a) := Hlink hpv hb
        refine Or.inr ⟨(j, a) :: l₁, p, l₂, by rw [hdec]; rfl, hp1, hpv, ?_, ?_⟩
        · intro q hq
          rcases List.mem_cons.mp hq with rfl | hmem
          · exact Hasym hpa
          · exact hall q (hdec ▸ hmem)
        · intro q hq
          rcases List.mem_cons.mp hq with rfl | hmem
          · exact hpa
          · exact hpre q hmem

theorem argBestGo_none {α : Type} (better : ℝ → ℝ → Prop) (f : α → ℝ)
    (Hirr : ∀ x : ℝ, ¬ better x x)
    (Hasym : ∀ {x y : ℝ}, better x y → ¬ better y x)
    (Htrans : ∀ {x y z : ℝ}, better x y → better y z → better x z)
    (Hlink : ∀ {x y z : ℝ}, better x z → ¬ better y z → better x y)
    (l : List (ℕ × α)) (r : ℕ)
    (h : MCTSNode.argBestGo better f l none = some r) :
    ∃ l₁ p l₂, l = l₁ ++ p :: l₂ ∧ p.1 = r ∧
      (∀ q ∈ l, ¬ better (f q.2) (f p.2)) ∧
      (∀ q ∈ l₁, better (f p.2) (f q.2)) := by
  cases l with
  | nil =>
    rw [MCTSNode.argBestGo] at h
    exact Option.noConfusion h
  | cons ja rest =>
    obtain ⟨j, a⟩ := ja
    rw [MCTSNode.argBestGo] at h
    dsimp only [] at h
    rw [if_pos trivial] at h
    rcases argBestGo_acc better f Hirr @Hasym @Htrans @Hlink rest j (f a) r h with
      ⟨hr, hrest⟩ | ⟨l₁, p, l₂, hdec, hp1, hpv, hall, hpre⟩
    · refine ⟨[], (j, a), rest, rfl, hr ▸ rfl, ?_, ?_⟩
      · intro q hq
        rcases List.mem_cons.mp hq with rfl | hmem
        · exact Hirr _
        · exact hrest q hmem
      · intro q hq
        exact absurd hq (List.not_mem_nil q)
    · refine ⟨(j, a) :: l₁, p, l₂, by rw [hdec]; rfl, hp1, ?_, ?_⟩
      · intro q hq
        rcases List.mem_cons.mp hq with rfl | hmem
        · exact Hasym hpv
        · exact hall q (hdec ▸ hmem)
      · intro q hq
        rcases List.mem_cons.mp hq with rfl | hmem
        · exact hpv
        · exact hpre q hmem

theorem argBestGo_acc_isSome {α : Type} (better : ℝ → ℝ → Prop) (f : α → ℝ) :
    ∀ (l : List (ℕ × α)) (i0 : ℕ) (v0 : ℝ),
      ∃ r, MCTSNode.argBestGo better f l (some (i0, v0)) = some r := by
  intro l
  induction l with
  | nil => intro i0 v0; exact ⟨i0, rfl⟩
  | cons ja rest ih =>
    intro i0 v0
    obtain ⟨j, a⟩ := ja
    rw [MCTSNode.argBestGo]
    dsimp only []
    by_cases hb : better (f a) v0
    · rw [if_pos hb]
      exact ih j (f a)
    · rw [if_neg hb]
      exact ih i0 v0

theorem argBestGo_none_isSome {α : Type} (better : ℝ → ℝ → Prop) (f : α → ℝ)
    (l : List (ℕ × α)) (hne : l ≠ []) :
    ∃ r, MCTSNode.argBestGo better f l none = some r := by
  cases l with
  | nil => exact absurd rfl hne
  | cons ja rest =>
    obtain ⟨j, a⟩ := ja
    rw [MCTSNode.argBestGo]
    dsimp only []
    rw [if_pos trivial]
    exact argBestGo_acc_isSome better f rest j (f a)

theorem unexp_get :
    ∀ (l : List (ℤ × MCTSNode)) (s m j : ℕ),
      ((((List.enumFrom s l).filter (fun p => p.2.2.ni = 0)).map
        Prod.fst).get? m = some j) →
      s ≤ j ∧ ∃ q, l.get? (j - s) = some q ∧ q.2.ni = 0 ∧
        ((l.map Prod.snd).filter (fun ch => ch.ni = 0)).get? m = some q.2 := by
  intro l
  induction l with
  | nil =>
    intro s m j h
    simp [List.enumFrom] at h
  | cons q0 rest ih =>
    intro s m j h
    rw [List.enumFrom] at h
    by_cases hP : q0.2.ni = 0
    · rw [List.filter_cons_of_pos (by simpa using hP), List.map_cons] at h
      cases m with
      | zero =>
        rw [List.get?_cons_zero, Option.some_inj] at h
        subst h
        refine ⟨le_refl s, q0, by simp, hP, ?_⟩
        rw [List.map_cons, List.filter_cons_of_pos (by simpa using hP)]
        simp
      | succ m' =>
        rw [List.get?_cons_succ] at h
        obtain ⟨hsj, q, hq, hqni, hz⟩ := ih (s + 1) m' j h
        refine ⟨by omega, q, ?_, hqni, ?_⟩
        · have hsub : j - s = (j - (s + 1)) + 1 := by omega
          rw [hsub, List.get?_cons_succ]
          exact hq
        · rw [List.map_cons, List.filter_cons_of_pos (by simpa using hP),
            List.get?_cons_succ]
          exact hz
    · rw [List.filter_cons_of_neg (by simpa using hP)] at h
      obtain ⟨hsj, q, hq, hqni, hz⟩ := ih (s + 1) m j h
      refine ⟨by omega, q, ?_, hqni, ?_⟩
      · have hsub : j - s = (j - (s + 1)) + 1 := by omega
        rw [hsub, List.get?_cons_succ]
        exact hq
      · rw [List.map_cons, List.filter_cons_of_neg (by simpa using hP)]
        exact hz

theorem unexp_length :
    ∀ (l : List (ℤ × MCTSNode)) (s : ℕ),
      (((List.enumFrom s l).filter (fun p => p.2.2.ni = 0)).map
        Prod.fst).length =
      ((l.map Prod.snd).filter (fun ch => ch.ni = 0)).length := by
  intro l
  induction l with
  | nil => intro s; simp [List.enumFrom]
  | cons q0 rest ih =>
    intro s
    rw [List.enumFrom, List.map_cons]
    by_cases hP : q0.2.ni = 0
    · rw [List.filter_cons_of_pos (by simpa using hP),
        List.filter_cons_of_pos (by simpa using hP)]
      simp [ih]
    · rw [List.filter_cons_of_neg (by simpa using hP),
        List.filter_cons_of_neg (by simpa using hP)]
      exact ih (s + 1)

theorem mem_enum_get? {l : List (ℤ × MCTSNode)} {p : ℕ × (ℤ × MCTSNode)}
    (hp : p ∈ l.enum) : l.get? p.1 = some p.2 := by
  obtain ⟨i, x⟩ := p
  obtain ⟨_, hlt, hx⟩ := List.mem_enumFrom hp
  rw [List.get?_eq_getElem?, List.getElem?_eq_getElem (by omega)]
  simp only [Nat.sub_zero] at hx
  rw [hx]

theorem best_child_unexplored (n : MCTSNode) (c_param : ℝ)
    (hne : n.children ≠ []) :
    (∀ m z, ((n.children.map Prod.snd).filter (fun ch => ch.ni = 0)).get? m =
        some z → n.best_child c_param m = some z) ∧
    (((n.children.map Prod.snd).filter (fun ch => ch.ni = 0)) ≠ [] → ∀ k,
      ∃ z ∈ (n.children.map Prod.snd).filter (fun ch => ch.ni = 0),
        n.best_child c_param k = some z) := by
  have henum : n.children.enum = List.enumFrom 0 n.children := rfl
  have hisE : ¬ n.children.isEmpty = true :=
    fun h => hne (List.isEmpty_iff.mp h)
  have hlen := unexp_length n.children 0
  constructor
  · intro m z hz
    obtain ⟨hmlt, _⟩ := List.get?_eq_some.mp hz
    simp only [MCTSNode.best_child, MCTSNode.best_childIdx]
    rw [if_neg hisE]
    have hUlen : ((n.children.enum.filter (fun p => p.2.2.ni = 0)).map
        Prod.fst).length =
        ((n.children.map Prod.snd).filter (fun ch => ch.ni = 0)).length := by
      rw [henum]; exact hlen
    have hUne : ((n.children.enum.filter (fun p => p.2.2.ni = 0)).map
        Prod.fst) ≠ [] := by
      intro hnil
      rw [hnil] at hUlen
      simp at hUlen
      omega
    rw [if_pos hUne]
    have hmod : m % ((n.children.enum.filter (fun p => p.2.2.ni = 0)).map
        Prod.fst).length = m := Nat.mod_eq_of_lt (by rw [hUlen]; exact hmlt)
    rw [hmod]
    obtain ⟨j, hj⟩ : ∃ j, ((n.children.enum.filter
        (fun p => p.2.2.ni = 0)).map Prod.fst).get? m = some j := by
      rw [List.get?_eq_getElem?,
        List.getElem?_eq_getElem (by rw [hUlen]; exact hmlt)]
      exact ⟨_, rfl⟩
    rw [hj]
    obtain ⟨_, q, hq, _, hzq⟩ := unexp_get n.children 0 m j (henum ▸ hj)
    rw [Option.some_bind, Nat.sub_zero] at *
    rw [hzq] at hz
    rw [hq]
    simp only [Option.map_some']
    rw [Option.some_inj] at hz
    rw [hz]
  · intro hZ k
    have hZpos : 0 < ((n.children.map Prod.snd).filter
        (fun ch => ch.ni = 0)).length := List.length_pos.mpr hZ
    simp only [MCTSNode.best_child, MCTSNode.best_childIdx]
    rw [if_neg hisE]
    have hUlen : ((n.children.enum.filter (fun p => p.2.2.ni = 0)).map
        Prod.fst).length =
        ((n.children.map Prod.snd).filter (fun ch => ch.ni = 0)).length := by
      rw [henum]; exact hlen
    have hUne : ((n.children.enum.filter (fun p => p.2.2.ni = 0)).map
        Prod.fst) ≠ [] := by
      intro hnil
      rw [hnil] at hUlen
      simp at hUlen
      omega
    rw [if_pos hUne]
    have hmlt : k % ((n.children.enum.filter (fun p => p.2.2.ni = 0)).map
        Prod.fst).length < ((n.children.enum.filter
          (fun p => p.2.2.ni = 0)).map Prod.fst).length :=
      Nat.mod_lt _ (List.length_pos.mpr hUne)
    obtain ⟨j, hj⟩ : ∃ j, ((n.children.enum.filter
        (fun p => p.2.2.ni = 0)).map Prod.fst).get?
          (k % ((n.children.enum.filter (fun p => p.2.2.ni = 0)).map
            Prod.fst).length) = some j := by
      rw [List.get?_eq_getElem?, List.getElem?_eq_getElem hmlt]
      exact ⟨_, rfl⟩
    rw [hj]
    obtain ⟨_, q, hq, _, hzq⟩ := unexp_get n.children 0 _ j (henum ▸ hj)
    rw [Nat.sub_zero] at hq
    refine ⟨q.2, List.get?_mem hzq, ?_⟩
    rw [Option.some_bind, hq]
    simp

theorem best_child_visited (n : MCTSNode) (c_param : ℝ) (k : ℕ)
    (hne : n.children ≠ []) (hvis : ∀ q ∈ n.children, q.2.ni ≠ 0)
    (better : ℝ → ℝ → Prop)
    (Hirr : ∀ x : ℝ, ¬ better x x)
    (Hasym : ∀ {x y : ℝ}, better x y → ¬ better y x)
    (Htrans : ∀ {x y z : ℝ}, better x y → better y z → better x z)
    (Hlink : ∀ {x y z : ℝ}, better x z → ¬ better y z → better x y)
    (hbet : MCTSNode.betterFor n.player_to_move = better) :
    ∃ l₁ p l₂, n.children = l₁ ++ p :: l₂ ∧
      n.best_child c_param k = some p.2 ∧
      (∀ q ∈ n.children, ¬ better (MCTSNode.ucbValue c_param n.ni q.2)
        (MCTSNode.ucbValue c_param n.ni p.2)) ∧
      (∀ q ∈ l₁, better (MCTSNode.ucbValue c_param n.ni p.2)
        (MCTSNode.ucbValue c_param n.ni q.2)) := by
  have hisE : ¬ n.children.isEmpty = true :=
    fun h => hne (List.isEmpty_iff.mp h)
  have hU0 : ((n.children.enum.filter (fun p => p.2.2.ni = 0)).map
      Prod.fst) = [] := by
    have hfil : (n.children.enum.filter (fun p => p.2.2.ni = 0)) = [] := by
      rw [List.filter_eq_nil_iff]
      intro p hp
      have hmem : p.2 ∈ n.children := by
        have h1 : p.2 ∈ List.map Prod.snd n.children.enum :=
          List.mem_map_of_mem Prod.snd hp
        rwa [List.enum_map_snd] at h1
      simpa using hvis p.2 hmem
    rw [hfil]
    rfl
  have henu : n.children.enum ≠ [] := by
    intro hnil
    have hlen0 : n.children.enum.length = 0 := by rw [hnil]; rfl
    rw [List.enum_length] at hlen0
    exact hne (List.length_eq_zero.mp hlen0)
  obtain ⟨r, hr⟩ := argBestGo_none_isSome better
    (fun p => MCTSNode.ucbValue c_param n.ni p.2) n.children.enum henu
  obtain ⟨E₁, ep, E₂, hdec, hep1, hall, hpre⟩ :=
    argBestGo_none better (fun p => MCTSNode.ucbValue c_param n.ni p.2)
      Hirr @Hasym @Htrans @Hlink n.children.enum r hr
  have hmem_ep : ep ∈ n.children.enum := by
    rw [hdec]
    exact List.mem_append_right _ (List.mem_cons_self _ _)
  have hget : n.children.get? ep.1 = some ep.2 := mem_enum_get? hmem_ep
  have hch : n.children = E₁.map Prod.snd ++ ep.2 :: E₂.map Prod.snd := by
    conv_lhs => rw [← List.enum_map_snd n.children, hdec]
    rw [List.map_append, List.map_cons]
  refine ⟨E₁.map Prod.snd, ep.2, E₂.map Prod.snd, hch, ?_, ?_, ?_⟩
  · simp only [MCTSNode.best_child, MCTSNode.best_childIdx]
    rw [if_neg hisE]
    rw [if_neg (fun h => h hU0), hbet, hr, Option.some_bind, ← hep1, hget]
    simp
  · intro q hq
    have h1 : q ∈ List.map Prod.snd n.children.enum := by
      rw [List.enum_map_snd]
      exact hq
    obtain ⟨qe, hqe, hqe2⟩ := List.mem_map.mp h1
    rw [← hqe2]
    exact hall qe hqe
  · intro q hq
    obtain ⟨qe, hqe, hqe2⟩ := List.mem_map.mp hq
    rw [← hqe2]
    exact hpre qe hqe

/-- C1: `best_child` on a node with no children returns `None`.  On a node
with children it behaves as follows, for any draw `k` of the generator:
when some child has zero visits, the result is drawn from the zero-visit
children in stable order — drawing `m` yields the `m`-th zero-visit child,
and every draw yields some zero-visit child (uniformly random choice among
them); when every child has been visited, the result is the child
optimizing `wi/ni + c_param * sqrt(ln(node.ni)/child.ni)` — the maximum
when the node's player-to-move is Yellow and the minimum otherwise — and on
exact ties the first child in the stable iteration order of the children
map is kept (every strictly earlier child scores strictly worse). -/
theorem best_child_spec (n : MCTSNode) (c_param : ℝ) (k : ℕ) :
    (n.children = [] → n.best_child c_param k = none) ∧
    (n.children ≠ [] →
      ((∀ m z, ((n.children.map Prod.snd).filter
          (fun ch => ch.ni = 0)).get? m = some z →
          n.best_child c_param m = some z) ∧
        (((n.children.map Prod.snd).filter (fun ch => ch.ni = 0)) ≠ [] →
          ∃ z ∈ (n.children.map Prod.snd).filter (fun ch => ch.ni = 0),
            n.best_child c_param k = some z)) ∧
      ((∀ q ∈ n.children, q.2.ni ≠ 0) →
        ((n.player_to_move = 'Y' →
          ∃ l₁ p l₂, n.children = l₁ ++ p :: l₂ ∧
            n.best_child c_param k = some p.2 ∧
            (∀ q ∈ n.children, MCTSNode.ucbValue c_param n.ni q.2 ≤
              MCTSNode.ucbValue c_param n.ni p.2) ∧
            (∀ q ∈ l₁, MCTSNode.ucbValue c_param n.ni q.2 <
              MCTSNode.ucbValue c_param n.ni p.2)) ∧
         (n.player_to_move ≠ 'Y' →
          ∃ l₁ p l₂, n.children = l₁ ++ p :: l₂ ∧
            n.best_child c_param k = some p.2 ∧
            (∀ q ∈ n.children, MCTSNode.ucbValue c_param n.ni p.2 ≤
              MCTSNode.ucbValue c_param n.ni q.2) ∧
            (∀ q ∈ l₁, MCTSNode.ucbValue c_param n.ni p.2 <
              MCTSNode.ucbValue c_param n.ni q.2))))) := by
  refine ⟨?_, ?_⟩
  · intro hnil
    simp [MCTSNode.best_child, MCTSNode.best_childIdx, hnil]
  · intro hne
    refine ⟨⟨(best_child_unexplored n c_param hne).1,
      fun hZ => (best_child_unexplored n c_param hne).2 hZ k⟩, ?_⟩
    intro hvis
    constructor
    · intro hY
      have hbet : MCTSNode.betterFor n.player_to_move =
          fun x y : ℝ => x > y := by
        rw [MCTSNode.betterFor, if_pos hY]
      obtain ⟨l₁, p, l₂, hdec, hbc, hall, hpre⟩ :=
        best_child_visited n c_param k hne hvis (fun x y : ℝ => x > y)
          (fun x => lt_irrefl x) (fun h1 h2 => absurd h2 (lt_asymm h1))
          (fun h1 h2 => lt_trans h2 h1)
          (fun h1 h2 => lt_of_le_of_lt (not_lt.mp h2) h1) hbet
      exact ⟨l₁, p, l₂, hdec, hbc, fun q hq => not_lt.mp (hall q hq), hpre⟩
    · intro hY
      have hbet : MCTSNode.betterFor n.player_to_move =
          fun x y : ℝ => x < y := by
        rw [MCTSNode.betterFor, if_neg hY]
      obtain ⟨l₁, p, l₂, hdec, hbc, hall, hpre⟩ :=
        best_child_visited n c_param k hne hvis (fun x y : ℝ => x < y)
          (fun x => lt_irrefl x) (fun h1 h2 => absurd h2 (lt_asymm h1))
          (fun h1 h2 => lt_trans h1 h2)
          (fun h1 h2 => lt_of_lt_of_le h1 (not_lt.mp h2)) hbet
      exact ⟨l₁, p, l₂, hdec, hbc, fun q hq => not_lt.mp (hall q hq), hpre⟩

/-- Witness for C1: a childless node yields `None`. -/
theorem best_child_spec_witness :
    (MCTSNode.mk 0 0 [] 'Y' none []).best_child 1.4 0 = none :=
  (best_child_spec (MCTSNode.mk 0 0 [] 'Y' none []) 1.4 0).1 rfl

end ConnectFour
